import Mathlib

/-!
Verification development for the segment-serialization and skip-list core of
the tantivy repository (files `src/core/skip.rs`, `src/core/codec.rs`,
`src/core/searcher.rs`, `src/directory/fs_directory.rs`).

Byte streams are modelled as `List Nat` (one `Nat` per byte; the big-endian
u32 encoder only ever emits digits `< 256`).  Machine integers (`u32`,
`usize`) are modelled as `Nat`; where the source truncates with an `as u32`
cast, the truncation is inherited by the big-endian byte encoder, which only
keeps a value modulo `2 ^ 32` (see `u32Bytes`).
-/

/-- `u32::max_value()`, the `DocId` end-of-stream sentinel of the source. -/
def U32MAX : Nat := 4294967295

/-- Big-endian 4-byte encoding of a `u32`, as written by
`byteorder::WriteBytesExt::write_u32::<BigEndian>`.  Values `≥ 2 ^ 32` are
truncated exactly as the `as u32` casts in the source are. -/
def u32Bytes (n : Nat) : List Nat :=
  [n / 16777216 % 256, n / 65536 % 256, n / 256 % 256, n % 256]

/-- Big-endian read of a `u32` from the head of a byte stream, as performed by
`byteorder::ReadBytesExt::read_u32::<BigEndian>`; `none` models the
end-of-stream error. -/
def readU32 : List Nat → Option Nat
  | b0 :: b1 :: b2 :: b3 :: _ => some (((b0 * 256 + b1) * 256 + b2) * 256 + b3)
  | _ => none

/-- Modelled from the spec: the `BinarySerializable` trait of the missing
`core/serialize.rs` — "given a byte sink, write exactly one encoding of
`self`; given a byte source, read exactly one".  `deserialize` returns the
decoded value together with the number of bytes consumed, or `none` on a
malformed/short stream. -/
structure BinarySerializable (α : Type) where
  serialize : α → List Nat
  deserialize : List Nat → Option (α × Nat)

/-- A value that the codec decodes back from its own encoding (the lawfulness
of `BinarySerializable` for a particular value). -/
def DeserVal (c : BinarySerializable α) (v : α) : Prop :=
  ∀ rest, c.deserialize (c.serialize v ++ rest) = some (v, (c.serialize v).length)

/-- Modelled from the spec: the `u32` instance of `BinarySerializable`
(big-endian fixed width, 4 bytes). -/
def u32Ser : BinarySerializable Nat :=
  { serialize := u32Bytes
    deserialize := fun bs => (readU32 bs).map (fun n => (n, 4)) }

/-- Modelled from the spec: the unit instance of `BinarySerializable` — "the
unit type () encodes to zero bytes". -/
def unitSer : BinarySerializable Unit :=
  { serialize := fun _ => []
    deserialize := fun _ => some ((), 0) }

/-! ### The skip-list builder (`src/core/skip.rs`, `LayerBuilder` and
`SkipListBuilder`) -/

/-- One layer of the skip-list builder (`LayerBuilder<T>` in `skip.rs`).  The
`_phantom_` marker field is omitted; the codec is instead passed to the
operations explicitly. -/
structure LayerBuilder (α : Type) where
  period : Nat
  buffer : List Nat
  remaining : Nat
  len : Nat

/-- `LayerBuilder::written_size`. -/
def LayerBuilder.written_size (l : LayerBuilder α) : Nat := l.buffer.length

/-- `LayerBuilder::with_period`. -/
def LayerBuilder.with_period (p : Nat) : LayerBuilder α :=
  { period := p, buffer := [], remaining := p, len := 0 }

/-- `LayerBuilder::insert`: decrement `remaining`, record the byte offset
*before* the record is appended, emit a promotion `(doc_id, offset)` when
`remaining` hits zero (resetting it to `period`), then append
`doc_id:u32 BE || T::serialize(value)` to the buffer. -/
def LayerBuilder.insert (c : BinarySerializable α) (l : LayerBuilder α)
    (doc_id : Nat) (value : α) : LayerBuilder α × Option (Nat × Nat) :=
  let remaining := l.remaining - 1
  let offset := l.written_size
  let st :=
    if remaining = 0 then (l.period, some (doc_id, offset))
    else (remaining, none)
  ({ period := l.period
     buffer := l.buffer ++ u32Bytes doc_id ++ c.serialize value
     remaining := st.1
     len := l.len + 1 }, st.2)

/-- `SkipListBuilder<T>` in `skip.rs`: a data layer over `T` plus skip layers
over `u32` byte offsets. -/
structure SkipListBuilder (α : Type) where
  period : Nat
  data_layer : LayerBuilder α
  skip_layers : List (LayerBuilder Nat)

/-- `SkipListBuilder::new`. -/
def SkipListBuilder.new (p : Nat) : SkipListBuilder α :=
  { period := p
    data_layer := LayerBuilder.with_period p
    skip_layers := [] }

/-- The promotion loop of `SkipListBuilder::insert`, written as a traversal of
the `skip_layers` vector: the source iterates `layer_id = 0, 1, 2, …`,
inserting the pending promotion into `skip_layers[layer_id]`
(`get_skip_layer` appends a fresh `LayerBuilder::with_period(period)` when
`layer_id` equals the current length, i.e. exactly in the `[]` case below) and
continues while promotions keep cascading.  The loop of the source is
unbounded, so it is given a fuel parameter; `none` means the fuel was
exhausted, i.e. the source loop would still be running after that many
iterations. -/
def insertLoop (p : Nat) : Nat → List (LayerBuilder Nat) → Nat → Nat →
    Option (List (LayerBuilder Nat))
  | 0, _, _, _ => none
  | fuel + 1, [], d, off =>
    let r := (LayerBuilder.with_period p).insert u32Ser d off
    match r.2 with
    | none => some [r.1]
    | some (d2, off2) => (insertLoop p fuel [] d2 off2).map (fun ls => r.1 :: ls)
  | fuel + 1, l :: rest, d, off =>
    let r := l.insert u32Ser d off
    match r.2 with
    | none => some (r.1 :: rest)
    | some (d2, off2) => (insertLoop p fuel rest d2 off2).map (fun ls => r.1 :: ls)

/-- `SkipListBuilder::insert`: insert into the data layer, then run the
promotion cascade through the skip layers.  The fuel
`skip_layers.length + 1` is enough for the cascade to reach one layer past
the currently existing ones; `none` means the source loop would not have
terminated within that bound (which `insert_terminates` below rules out for
`period ≥ 2`). -/
def SkipListBuilder.insert (c : BinarySerializable α) (b : SkipListBuilder α)
    (doc_id : Nat) (dest : α) : Option (SkipListBuilder α) :=
  let r := b.data_layer.insert c doc_id dest
  match r.2 with
  | none => some { b with data_layer := r.1 }
  | some (d, off) =>
    (insertLoop b.period (b.skip_layers.length + 1) b.skip_layers d off).map
      (fun ls => { b with data_layer := r.1, skip_layers := ls })

/-- Sequence of `SkipListBuilder::insert` calls. -/
def insertAll (c : BinarySerializable α) (b : SkipListBuilder α) :
    List (Nat × α) → Option (SkipListBuilder α)
  | [] => some b
  | e :: es => match b.insert c e.1 e.2 with
    | none => none
    | some b2 => insertAll c b2 es

/-- Running cumulative sums, mirroring the `size += …; layer_sizes.push(size)`
accumulation in `SkipListBuilder::write`. -/
def cumSizes (s : Nat) : List Nat → List Nat
  | [] => []
  | x :: xs => (s + x) :: cumSizes (s + x) xs

/-- The cumulative layer sizes pushed by `SkipListBuilder::write`: the data
layer size first, then one more entry per skip layer. -/
def SkipListBuilder.layer_sizes (b : SkipListBuilder α) : List Nat :=
  cumSizes 0 (b.data_layer.buffer.length :: b.skip_layers.map (fun l => l.buffer.length))

/-- Modelled from the spec: `Vec<u32>::serialize` of the missing
`core/serialize.rs` — "`Vec<T>` is encoded as `len:u32 BE` followed by the
elements". -/
def serVecU32 (xs : List Nat) : List Nat :=
  u32Bytes xs.length ++ (xs.map u32Bytes).flatten

/-- `SkipListBuilder::write` with an in-memory (`Vec<u8>`) sink: the
cumulative-size header, the data layer bytes, then each skip layer's bytes in
ascending layer order.  (The `WriteError` branches of the source fire only
when the underlying sink fails, which an in-memory sink never does.) -/
def SkipListBuilder.write (b : SkipListBuilder α) : List Nat :=
  serVecU32 b.layer_sizes ++ b.data_layer.buffer ++
    (b.skip_layers.map (fun l => l.buffer)).flatten

/-! ### The skip-list reader (`src/core/skip.rs`, `Layer` and `SkipList`) -/

/-- A `Layer<'a, T>` cursor of `skip.rs`: the byte slice it was built over,
the cursor position inside it, and the `next_id` lookahead (`U32MAX` encodes
end of stream). -/
structure Layer (α : Type) where
  data : List Nat
  pos : Nat
  next_id : Nat

/-- `Layer::read`: read the first `DocId` (end of stream becomes the `U32MAX`
sentinel).  On a short stream the position the failed read leaves the cursor
at is never observed again (the sentinel shields it); it is pinned to the end
of the slice here. -/
def Layer.read (data : List Nat) : Layer α :=
  match readU32 data with
  | some id => { data := data, pos := 4, next_id := id }
  | none => { data := data, pos := data.length, next_id := U32MAX }

/-- `Layer::empty`. -/
def Layer.empty : Layer α := { data := [], pos := 0, next_id := U32MAX }

/-- `Layer::next` (the `Iterator` impl): yield `(next_id, T::deserialize)`
and refresh the lookahead.  The source unwraps the value deserialization
(aborting the process on failure); that failure is modelled as `none`, and is
unreachable on any slice produced by the builder. -/
def Layer.next (c : BinarySerializable α) (l : Layer α) :
    Option ((Nat × α) × Layer α) :=
  if l.next_id = U32MAX then none
  else
    match c.deserialize (l.data.drop l.pos) with
    | none => none
    | some (v, k) =>
      match readU32 (l.data.drop (l.pos + k)) with
      | some id =>
        some ((l.next_id, v), { l with pos := l.pos + k + 4, next_id := id })
      | none =>
        some ((l.next_id, v), { l with pos := l.pos + k, next_id := U32MAX })

/-- `Layer::seek_offset`: reposition the cursor and re-read the lookahead. -/
def Layer.seek_offset (l : Layer α) (offset : Nat) : Layer α :=
  match readU32 (l.data.drop offset) with
  | some id => { l with pos := offset + 4, next_id := id }
  | none => { l with pos := offset, next_id := U32MAX }

/-- The `while self.next_id < doc_id` loop of `Layer::seek`, with fuel.  Fuel
exhaustion returns the state reached so far; `Layer.seek` below passes more
fuel than the loop can ever consume (each iteration that keeps the loop alive
advances the cursor by at least 4 bytes of the slice, or is one of at most two
trailing iterations), so the cut-off is never taken. -/
def Layer.seekGo (c : BinarySerializable α) (doc_id : Nat) :
    Nat → Layer α → Option (Nat × α) → Option (Nat × α) × Layer α
  | 0, l, val => (val, l)
  | fuel + 1, l, val =>
    if l.next_id < doc_id then
      match l.next c with
      | none => (val, l)
      | some (e, l2) => Layer.seekGo c doc_id fuel l2 (some e)
    else (val, l)

/-- `Layer::seek`: consume entries while their key is `< doc_id`, returning
the last consumed entry (the largest key strictly below the target), or
`none` when no entry was consumed. -/
def Layer.seek (c : BinarySerializable α) (l : Layer α) (doc_id : Nat) :
    Option (Nat × α) × Layer α :=
  Layer.seekGo c doc_id (l.data.length + 2) l none

/-- `SkipList<'a, T>` of `skip.rs`: the data layer plus the skip layers,
topmost (sparsest) first. -/
structure SkipList (α : Type) where
  data_layer : Layer α
  skip_layers : List (Layer Nat)

/-- `SkipList::next` (the `Iterator` impl): delegates to the data layer. -/
def SkipList.next (c : BinarySerializable α) (sk : SkipList α) :
    Option ((Nat × α) × SkipList α) :=
  match sk.data_layer.next c with
  | none => none
  | some (e, l) => some (e, { sk with data_layer := l })

/-- The `for skip_layer_id in 0..self.skip_layers.len()` loop of
`SkipList::seek`, as a traversal of the skip-layer list from the topmost
layer down: reposition the layer if the layer above produced a promotion
pointer, seek it, and pass its own result down. -/
def seekLayers (doc_id : Nat) :
    List (Layer Nat) → Option (Nat × Nat) → List (Layer Nat) × Option (Nat × Nat)
  | [], ptr => ([], ptr)
  | l :: rest, ptr =>
    let l1 := match ptr with
      | some (_, offset) => l.seek_offset offset
      | none => l
    let r := l1.seek u32Ser doc_id
    let rec2 := seekLayers doc_id rest r.1
    (r.2 :: rec2.1, rec2.2)

/-- `SkipList::seek`: walk the skip layers top-down, then reposition the data
layer at the final promotion pointer (if any) and seek it. -/
def SkipList.seek (c : BinarySerializable α) (sk : SkipList α) (doc_id : Nat) :
    Option (Nat × α) × SkipList α :=
  let walk := seekLayers doc_id sk.skip_layers none
  let dl := match walk.2 with
    | some (_, offset) => sk.data_layer.seek_offset offset
    | none => sk.data_layer
  let r := dl.seek c doc_id
  (r.1, { data_layer := r.2, skip_layers := walk.1 })

/-- Read `n` big-endian `u32` values from the head of a stream. -/
def readNU32 : Nat → List Nat → Option (List Nat)
  | 0, _ => some []
  | n + 1, bs =>
    match readU32 bs with
    | none => none
    | some v => (readNU32 n (bs.drop 4)).map (fun vs => v :: vs)

/-- Modelled from the spec: `Vec<u32>::deserialize` of the missing
`core/serialize.rs` — read `len:u32 BE`, then `len` big-endian `u32`
elements.  Returns the vector and the number of bytes consumed. -/
def readVecU32 (bs : List Nat) : Option (List Nat × Nat) :=
  match readU32 bs with
  | none => none
  | some n =>
    match readNU32 n (bs.drop 4) with
    | none => none
    | some vs => some (vs, 4 + 4 * n)

/-- `SkipList::read`: deserialize the cumulative-size header (the source
unwraps it, modelled as `none` on failure), slice the tail into the data
layer and the skip layers (zipping successive cumulative offsets), and
reverse the skip layers so the topmost one comes first. -/
def SkipList.read (data : List Nat) : Option (SkipList α) :=
  match readVecU32 data with
  | none => none
  | some (offsets, start_position) =>
    let layers_data := data.drop start_position
    let data_layer : Layer α :=
      match offsets with
      | [] => Layer.empty
      | o0 :: _ => Layer.read (layers_data.take o0)
    let skip_layers : List (Layer Nat) :=
      if offsets.length > 0 then
        (offsets.zip offsets.tail).map
          (fun se => Layer.read ((layers_data.drop se.1).take (se.2 - se.1)))
      else []
    some { data_layer := data_layer, skip_layers := skip_layers.reverse }

/-- Repeated `Layer::next`, collecting the yielded entries (the iteration the
tests perform on a `SkipList` via its data layer). -/
def Layer.drain (c : BinarySerializable α) : Nat → Layer α → List (Nat × α)
  | 0, _ => []
  | fuel + 1, l =>
    match l.next c with
    | none => []
    | some (e, l2) => e :: Layer.drain c fuel l2

/-- Repeated `SkipList::next`, collecting the yielded entries. -/
def SkipList.drain (c : BinarySerializable α) : Nat → SkipList α → List (Nat × α)
  | 0, _ => []
  | fuel + 1, sk =>
    match sk.next c with
    | none => []
    | some (e, sk2) => e :: SkipList.drain c fuel sk2

/-! ### Ghost (specification-level) view of the layer contents -/

/-- The bytes of one layer record, `DocId:u32 BE || T::serialize(value)`. -/
def encEntry (c : BinarySerializable α) (e : Nat × α) : List Nat :=
  u32Bytes e.1 ++ c.serialize e.2

/-- The bytes of a whole layer holding the entries `es` in order. -/
def encList (c : BinarySerializable α) (es : List (Nat × α)) : List Nat :=
  (es.map (encEntry c)).flatten

/-- The `(key, byte-offset)` pairs a layer holding `es` promotes to the layer
above it, accumulating the 1-based insertion count `cnt` and the byte offset
`off` of the next record: every entry whose count is divisible by the period
is promoted, carrying the offset its own record starts at. -/
def promoteAux (p : Nat) (c : BinarySerializable α) :
    Nat → Nat → List (Nat × α) → List (Nat × Nat)
  | _, _, [] => []
  | cnt, off, e :: es =>
    let rest := promoteAux p c (cnt + 1) (off + (encEntry c e).length) es
    if (cnt + 1) % p = 0 then (e.1, off) :: rest else rest

/-- The promoted subsample of a full layer. -/
def promote (p : Nat) (c : BinarySerializable α) (es : List (Nat × α)) :
    List (Nat × Nat) :=
  promoteAux p c 0 0 es

/-- The entries of skip layer `i + 1` (0-based: `skipLevel 0` is the first
skip layer, fed by the data layer holding `es`). -/
def skipLevel (p : Nat) (c : BinarySerializable α) (es : List (Nat × α)) :
    Nat → List (Nat × Nat)
  | 0 => promote p c es
  | i + 1 => promote p u32Ser (skipLevel p c es i)

/-- The builder invariant tying the concrete `skip_layers` vector to the
ghost entry lists: the first vector element holds exactly the entries `es`
(with the bookkeeping fields of a layer that received them one by one), and
the rest of the vector stands in the same relation to `promote p u32Ser es`.
A missing layer means nothing was ever promoted to it. -/
def MatchesLayers (p : Nat) : List (Nat × Nat) → List (LayerBuilder Nat) → Prop
  | es, [] => es = []
  | es, l :: rest =>
    es ≠ [] ∧ l.period = p ∧ l.buffer = encList u32Ser es ∧ l.len = es.length ∧
      l.remaining = p - es.length % p ∧ MatchesLayers p (promote p u32Ser es) rest

/-! ### Byte-level lemmas -/

theorem u32Bytes_length (n : Nat) : (u32Bytes n).length = 4 := rfl

theorem readU32_u32Bytes (n : Nat) (h : n < 4294967296) (rest : List Nat) :
    readU32 (u32Bytes n ++ rest) = some n := by
  show some (((n / 16777216 % 256 * 256 + n / 65536 % 256) * 256 + n / 256 % 256) * 256
      + n % 256) = some n
  congr 1
  omega

theorem deserVal_u32 (n : Nat) (h : n < 4294967296) : DeserVal u32Ser n := by
  intro rest
  show (readU32 (u32Bytes n ++ rest)).map (fun m => (m, 4)) = some (n, (u32Bytes n).length)
  rw [readU32_u32Bytes n h rest]
  rfl

theorem deserVal_unit (v : Unit) : DeserVal unitSer v := by
  intro rest
  rfl

theorem drop_u32Bytes_append (n : Nat) (rest : List Nat) :
    (u32Bytes n ++ rest).drop 4 = rest := rfl

/-! ### Layer encoding lemmas -/

theorem encList_nil (c : BinarySerializable α) : encList c [] = [] := rfl

theorem encList_cons (c : BinarySerializable α) (e : Nat × α) (es : List (Nat × α)) :
    encList c (e :: es) = encEntry c e ++ encList c es := by
  simp [encList]

theorem encList_append (c : BinarySerializable α) (xs ys : List (Nat × α)) :
    encList c (xs ++ ys) = encList c xs ++ encList c ys := by
  simp [encList]

theorem encEntry_length (c : BinarySerializable α) (e : Nat × α) :
    (encEntry c e).length = 4 + (c.serialize e.2).length := by
  simp [encEntry, u32Bytes]
  omega

theorem length_le_encList (c : BinarySerializable α) (es : List (Nat × α)) :
    4 * es.length ≤ (encList c es).length := by
  induction es with
  | nil => simp [encList]
  | cons e es ih =>
    rw [encList_cons]
    simp only [List.length_append, List.length_cons, encEntry_length]
    omega

/-! ### The `ReadsAs` characterization of a reader layer cursor: the cursor is
positioned right after the key of the first remaining entry (its lookahead),
and the slice tail holds that entry's value followed by the remaining
records. -/

def ReadsAs (c : BinarySerializable α) (l : Layer α) : List (Nat × α) → Prop
  | [] => l.next_id = U32MAX
  | (d, v) :: rest =>
    l.next_id = d ∧ d < U32MAX ∧
      l.data.drop l.pos = c.serialize v ++ encList c rest

theorem readsAs_next_nil (c : BinarySerializable α) (l : Layer α)
    (h : ReadsAs c l []) : l.next c = none := by
  have h2 : l.next_id = U32MAX := h
  simp [Layer.next, h2]

theorem readsAs_length (c : BinarySerializable α) (l : Layer α)
    (es : List (Nat × α)) (h : ReadsAs c l es) : es.length ≤ l.data.length + 1 := by
  match es with
  | [] => simp
  | (d, v) :: rest =>
    obtain ⟨-, -, hdrop⟩ := h
    have h1 : (l.data.drop l.pos).length ≤ l.data.length := by
      simp [List.length_drop]
    rw [hdrop] at h1
    have h2 := length_le_encList c rest
    simp only [List.length_append] at h1
    simp only [List.length_cons]
    omega

theorem readsAs_next_cons (c : BinarySerializable α) (l : Layer α)
    (d : Nat) (v : α) (rest : List (Nat × α))
    (h : ReadsAs c l ((d, v) :: rest))
    (hv : DeserVal c v)
    (hk : ∀ e ∈ rest, e.1 < U32MAX) :
    ∃ l2, l.next c = some ((d, v), l2) ∧ ReadsAs c l2 rest := by
  obtain ⟨hid, hd, hdrop⟩ := h
  have hne : l.next_id ≠ U32MAX := by rw [hid]; omega
  have hdes : c.deserialize (l.data.drop l.pos) = some (v, (c.serialize v).length) := by
    rw [hdrop]; exact hv _
  have hdrop2 : l.data.drop (l.pos + (c.serialize v).length) = encList c rest := by
    rw [← List.drop_drop, hdrop, List.drop_left]
  match rest with
  | [] =>
    have hread : readU32 (l.data.drop (l.pos + (c.serialize v).length)) = none := by
      rw [hdrop2]; rfl
    refine ⟨{ l with pos := l.pos + (c.serialize v).length, next_id := U32MAX }, ?_, ?_⟩
    · simp only [Layer.next, if_neg hne, hdes, hread, hid]
      rw [if_neg (show ¬ d = U32MAX by omega)]
    · simp [ReadsAs]
  | (d2, v2) :: rest2 =>
    have hd2 : d2 < U32MAX := hk (d2, v2) (List.mem_cons_self _ _)
    have henc : encList c ((d2, v2) :: rest2)
        = u32Bytes d2 ++ (c.serialize v2 ++ encList c rest2) := by
      rw [encList_cons]; simp [encEntry]
    have hread : readU32 (l.data.drop (l.pos + (c.serialize v).length)) = some d2 := by
      rw [hdrop2, henc, readU32_u32Bytes d2 (by unfold U32MAX at hd2; omega)]
    refine ⟨{ l with pos := l.pos + (c.serialize v).length + 4, next_id := d2 }, ?_, ?_⟩
    · simp only [Layer.next, if_neg hne, hdes, hread, hid]
      rw [if_neg (show ¬ d = U32MAX by omega)]
    · refine ⟨rfl, hd2, ?_⟩
      show l.data.drop (l.pos + (c.serialize v).length + 4)
          = c.serialize v2 ++ encList c rest2
      rw [← List.drop_drop, hdrop2, henc, drop_u32Bytes_append]

theorem readsAs_read (c : BinarySerializable α) (es : List (Nat × α))
    (hk : ∀ e ∈ es, e.1 < U32MAX) :
    ReadsAs c (Layer.read (encList c es)) es := by
  match es with
  | [] =>
    show ReadsAs c (Layer.read []) []
    simp [Layer.read, readU32, ReadsAs]
  | (d, v) :: rest =>
    have hd : d < U32MAX := hk (d, v) (List.mem_cons_self _ _)
    have henc : encList c ((d, v) :: rest)
        = u32Bytes d ++ (c.serialize v ++ encList c rest) := by
      rw [encList_cons]; simp [encEntry]
    rw [henc, Layer.read, readU32_u32Bytes d (by unfold U32MAX at hd; omega)]
    exact ⟨rfl, hd, drop_u32Bytes_append d _⟩

theorem readsAs_drain (c : BinarySerializable α) (es : List (Nat × α)) :
    ∀ (l : Layer α) (fuel : Nat), ReadsAs c l es →
    (∀ e ∈ es, DeserVal c e.2) → (∀ e ∈ es, e.1 < U32MAX) →
    es.length < fuel → Layer.drain c fuel l = es := by
  induction es with
  | nil =>
    intro l fuel h _ _ hfuel
    match fuel, hfuel with
    | fuel + 1, _ =>
      rw [Layer.drain, readsAs_next_nil c l h]
  | cons e rest ih =>
    intro l fuel h hv hk hfuel
    match fuel, hfuel with
    | fuel + 1, hfuel =>
      obtain ⟨l2, hnext, h2⟩ := readsAs_next_cons c l e.1 e.2 rest h
        (hv e (List.mem_cons_self _ _)) (fun x hx => hk x (List.mem_cons_of_mem _ hx))
      simp only [Layer.drain, hnext]
      rw [ih l2 fuel h2 (fun x hx => hv x (List.mem_cons_of_mem _ hx))
          (fun x hx => hk x (List.mem_cons_of_mem _ hx))
          (by simp only [List.length_cons] at hfuel; omega)]

/-! ### Seeking within one layer -/

/-- The last element of a list, or a fall-back accumulator when the list is
empty (the shape of the `val` accumulator in `Layer::seek`). -/
def lastD? (val : Option β) : List β → Option β
  | [] => val
  | x :: xs => lastD? (some x) xs

theorem lastD?_none_eq_getLast? (xs : List β) : lastD? none xs = xs.getLast? := by
  suffices h : ∀ (v : Option β), lastD? v xs = match xs with
      | [] => v
      | _ :: _ => xs.getLast? by
    match xs with
    | [] => exact h none
    | x :: xs => exact h none
  induction xs with
  | nil => intro v; rfl
  | cons x xs ih =>
    intro v
    show lastD? (some x) xs = (x :: xs).getLast?
    rw [ih (some x)]
    match xs with
    | [] => rfl
    | y :: ys => rw [List.getLast?_cons_cons]

theorem readsAs_seekGo (c : BinarySerializable α) (t : Nat) (es : List (Nat × α)) :
    ∀ (l : Layer α) (fuel : Nat) (val : Option (Nat × α)), ReadsAs c l es →
    (∀ e ∈ es, DeserVal c e.2) → (∀ e ∈ es, e.1 < U32MAX) →
    es.length < fuel →
    ∃ l2, Layer.seekGo c t fuel l val
        = (lastD? val (es.takeWhile (fun e => decide (e.1 < t))), l2)
      ∧ ReadsAs c l2 (es.dropWhile (fun e => decide (e.1 < t))) := by
  induction es with
  | nil =>
    intro l fuel val h _ _ hfuel
    match fuel, hfuel with
    | fuel + 1, _ =>
      refine ⟨l, ?_, h⟩
      rw [Layer.seekGo]
      by_cases ht : l.next_id < t
      · simp only [if_pos ht, readsAs_next_nil c l h]
        rfl
      · simp only [if_neg ht]
        rfl
  | cons e rest ih =>
    obtain ⟨d, v⟩ := e
    intro l fuel val h hv hk hfuel
    match fuel, hfuel with
    | fuel + 1, hfuel =>
      have hid : l.next_id = d := h.1
      by_cases ht : d < t
      · obtain ⟨l2, hnext, h2⟩ := readsAs_next_cons c l d v rest h
          (hv (d, v) (List.mem_cons_self _ _)) (fun x hx => hk x (List.mem_cons_of_mem _ hx))
        obtain ⟨l3, hrec, h3⟩ := ih l2 fuel (some (d, v)) h2
          (fun x hx => hv x (List.mem_cons_of_mem _ hx))
          (fun x hx => hk x (List.mem_cons_of_mem _ hx))
          (by simp only [List.length_cons] at hfuel; omega)
        refine ⟨l3, ?_, ?_⟩
        · rw [Layer.seekGo, if_pos (by rw [hid]; exact ht)]
          simp only [hnext]
          rw [hrec, List.takeWhile_cons, if_pos (by simpa using ht)]
          rfl
        · rw [List.dropWhile_cons, if_pos (by simpa using ht)]
          exact h3
      · refine ⟨l, ?_, ?_⟩
        · rw [Layer.seekGo, if_neg (by rw [hid]; exact ht)]
          rw [List.takeWhile_cons, if_neg (by simpa using ht)]
          rfl
        · rw [List.dropWhile_cons, if_neg (by simpa using ht)]
          exact h

theorem readsAs_seek (c : BinarySerializable α) (t : Nat) (es : List (Nat × α))
    (l : Layer α) (h : ReadsAs c l es)
    (hv : ∀ e ∈ es, DeserVal c e.2) (hk : ∀ e ∈ es, e.1 < U32MAX) :
    ∃ l2, Layer.seek c l t
        = ((es.takeWhile (fun e => decide (e.1 < t))).getLast?, l2)
      ∧ ReadsAs c l2 (es.dropWhile (fun e => decide (e.1 < t))) := by
  have hlen := readsAs_length c l es h
  obtain ⟨l2, hgo, h2⟩ := readsAs_seekGo c t es l (l.data.length + 2) none h hv hk (by omega)
  exact ⟨l2, by rw [Layer.seek, hgo, lastD?_none_eq_getLast?], h2⟩

/-- `Layer::seek_offset` at the byte offset where the `j`-th record of the
layer starts leaves the cursor reading the entries from `j` on. -/
theorem seek_offset_readsAs (c : BinarySerializable α) (es : List (Nat × α))
    (l : Layer α) (hdata : l.data = encList c es)
    (hk : ∀ e ∈ es, e.1 < U32MAX) (j : Nat) :
    ReadsAs c (l.seek_offset (encList c (es.take j)).length) (es.drop j) := by
  have hsplit : encList c es = encList c (es.take j) ++ encList c (es.drop j) := by
    rw [← encList_append, List.take_append_drop]
  have hdrop : l.data.drop (encList c (es.take j)).length = encList c (es.drop j) := by
    rw [hdata, hsplit, List.drop_left]
  match hrest : es.drop j with
  | [] =>
    have : readU32 (l.data.drop (encList c (es.take j)).length) = none := by
      rw [hdrop, hrest]; rfl
    rw [Layer.seek_offset, this]
    show (U32MAX : Nat) = U32MAX
    rfl
  | (d, v) :: rest2 =>
    have hd : d < U32MAX := by
      refine hk (d, v) ?_
      have : (d, v) ∈ es.drop j := by rw [hrest]; exact List.mem_cons_self _ _
      exact List.mem_of_mem_drop this
    have henc : encList c ((d, v) :: rest2)
        = u32Bytes d ++ (c.serialize v ++ encList c rest2) := by
      rw [encList_cons]; simp [encEntry]
    have hread : readU32 (l.data.drop (encList c (es.take j)).length) = some d := by
      rw [hdrop, hrest, henc, readU32_u32Bytes d (by unfold U32MAX at hd; omega)]
    rw [Layer.seek_offset, hread]
    refine ⟨rfl, hd, ?_⟩
    show l.data.drop ((encList c (es.take j)).length + 4)
        = c.serialize v ++ encList c rest2
    rw [← List.drop_drop, hdrop, hrest, henc, drop_u32Bytes_append]

/-! ### takeWhile / dropWhile / getLast? helpers -/

theorem takeWhile_append_all (q : β → Bool) (xs ys : List β)
    (h : ∀ x ∈ xs, q x = true) :
    (xs ++ ys).takeWhile q = xs ++ ys.takeWhile q := by
  induction xs with
  | nil => simp
  | cons x xs ih =>
    rw [List.cons_append, List.takeWhile_cons, if_pos (h x (List.mem_cons_self _ _)),
      ih (fun y hy => h y (List.mem_cons_of_mem _ hy))]
    rfl

theorem dropWhile_append_all (q : β → Bool) (xs ys : List β)
    (h : ∀ x ∈ xs, q x = true) :
    (xs ++ ys).dropWhile q = ys.dropWhile q := by
  induction xs with
  | nil => simp
  | cons x xs ih =>
    rw [List.cons_append, List.dropWhile_cons, if_pos (h x (List.mem_cons_self _ _)),
      ih (fun y hy => h y (List.mem_cons_of_mem _ hy))]

theorem getLast?_append_ne_nil (xs ys : List β) (h : ys ≠ []) :
    (xs ++ ys).getLast? = ys.getLast? := by
  induction xs with
  | nil => rfl
  | cons x xs ih =>
    rw [List.cons_append]
    rw [List.getLast?_cons, ih]
    match xs, ys, h with
    | [], y :: ys, _ => simp [List.getLast?_cons]
    | x2 :: xs, y :: ys, _ => simp [List.getLast?_cons]

/-! ### Lemmas about the promoted subsample -/

theorem promoteAux_snoc (p : Nat) (c : BinarySerializable α) (es : List (Nat × α)) :
    ∀ (cnt off : Nat) (e : Nat × α),
    promoteAux p c cnt off (es ++ [e])
      = promoteAux p c cnt off es
        ++ (if (cnt + es.length + 1) % p = 0
            then [(e.1, off + (encList c es).length)] else []) := by
  induction es with
  | nil =>
    intro cnt off e
    show (if (cnt + 1) % p = 0 then (e.1, off) :: promoteAux p c (cnt + 1) _ [] else _)
        = _
    by_cases hp : (cnt + 1) % p = 0
    · rw [if_pos hp]
      show [(e.1, off)] = promoteAux p c cnt off [] ++ _
      rw [if_pos (by simpa using hp)]
      simp [promoteAux, encList]
    · rw [if_neg hp]
      show promoteAux p c (cnt + 1) _ [] = promoteAux p c cnt off [] ++ _
      rw [if_neg (by simpa using hp)]
      simp [promoteAux]
  | cons x es ih =>
    intro cnt off e
    rw [List.cons_append]
    show (let rest := promoteAux p c (cnt + 1) (off + (encEntry c x).length) (es ++ [e]);
        if (cnt + 1) % p = 0 then (x.1, off) :: rest else rest) = _
    simp only [promoteAux]
    rw [ih (cnt + 1) (off + (encEntry c x).length) e]
    have harith : cnt + 1 + es.length + 1 = cnt + (x :: es).length + 1 := by
      simp [List.length_cons]; omega
    have hlen : off + (encEntry c x).length + (encList c es).length
        = off + (encList c (x :: es)).length := by
      rw [encList_cons, List.length_append]; omega
    rw [harith, hlen]
    by_cases hp : (cnt + 1) % p = 0
    · rw [if_pos hp, if_pos hp, List.cons_append]
    · rw [if_neg hp, if_neg hp]

theorem promoteAux_key_mem (p : Nat) (c : BinarySerializable α) (es : List (Nat × α)) :
    ∀ (cnt off : Nat) (y : Nat × Nat), y ∈ promoteAux p c cnt off es →
    ∃ z ∈ es, y.1 = z.1 := by
  induction es with
  | nil => intro cnt off y hy; exact absurd hy (by simp [promoteAux])
  | cons x es ih =>
    intro cnt off y hy
    simp only [promoteAux] at hy
    by_cases hp : (cnt + 1) % p = 0
    · rw [if_pos hp] at hy
      rcases List.mem_cons.mp hy with h | h
      · exact ⟨x, List.mem_cons_self _ _, by rw [h]⟩
      · obtain ⟨z, hz, hzz⟩ := ih _ _ y h
        exact ⟨z, List.mem_cons_of_mem _ hz, hzz⟩
    · rw [if_neg hp] at hy
      obtain ⟨z, hz, hzz⟩ := ih _ _ y hy
      exact ⟨z, List.mem_cons_of_mem _ hz, hzz⟩

theorem promoteAux_pairwise (p : Nat) (c : BinarySerializable α) (es : List (Nat × α)) :
    ∀ (cnt off : Nat), es.Pairwise (fun a b => a.1 < b.1) →
    (promoteAux p c cnt off es).Pairwise (fun a b => a.1 < b.1) := by
  induction es with
  | nil => intro cnt off _; simp [promoteAux]
  | cons x es ih =>
    intro cnt off h
    rw [List.pairwise_cons] at h
    simp only [promoteAux]
    by_cases hp : (cnt + 1) % p = 0
    · rw [if_pos hp]
      rw [List.pairwise_cons]
      refine ⟨?_, ih _ _ h.2⟩
      intro y hy
      obtain ⟨z, hz, hzz⟩ := promoteAux_key_mem p c es _ _ y hy
      rw [hzz]
      exact h.1 z hz
    · rw [if_neg hp]
      exact ih _ _ h.2

theorem promoteAux_shape (p : Nat) (c : BinarySerializable α) (es : List (Nat × α)) :
    ∀ (cnt off : Nat) (x : Nat × Nat), x ∈ promoteAux p c cnt off es →
    ∃ j, ∃ h : j < es.length,
      x = ((es.get ⟨j, h⟩).1, off + (encList c (es.take j)).length) := by
  induction es with
  | nil => intro cnt off x hx; exact absurd hx (by simp [promoteAux])
  | cons e es ih =>
    intro cnt off x hx
    simp only [promoteAux] at hx
    have hrec : x ∈ promoteAux p c (cnt + 1) (off + (encEntry c e).length) es →
        ∃ j, ∃ h : j < (e :: es).length,
          x = (((e :: es).get ⟨j, h⟩).1, off + (encList c ((e :: es).take j)).length) := by
      intro hmem
      obtain ⟨j, hj, hx2⟩ := ih _ _ x hmem
      refine ⟨j + 1, by simp only [List.length_cons]; omega, ?_⟩
      rw [hx2]
      have htake : (e :: es).take (j + 1) = e :: es.take j := rfl
      rw [htake, encList_cons, List.length_append]
      show ((es.get ⟨j, hj⟩).1, _) = (((e :: es).get ⟨j + 1, _⟩).1, _)
      congr 1
      omega
    by_cases hp : (cnt + 1) % p = 0
    · rw [if_pos hp] at hx
      rcases List.mem_cons.mp hx with h | h
      · refine ⟨0, by simp, ?_⟩
        rw [h]
        show (e.1, off) = (e.1, off + (encList c []).length)
        simp [encList]
      · exact hrec h
    · rw [if_neg hp] at hx
      exact hrec hx

theorem promoteAux_length (p : Nat) (c : BinarySerializable α) (es : List (Nat × α)) :
    ∀ (cnt off : Nat),
    (promoteAux p c cnt off es).length = (cnt + es.length) / p - cnt / p := by
  induction es with
  | nil => intro cnt off; simp [promoteAux]
  | cons e es ih =>
    intro cnt off
    simp only [promoteAux]
    have hsucc : (cnt + 1) / p = cnt / p + if p ∣ (cnt + 1) then 1 else 0 :=
      Nat.succ_div cnt p
    have hdvd : p ∣ (cnt + 1) ↔ (cnt + 1) % p = 0 := Nat.dvd_iff_mod_eq_zero
    have hmono2 : (cnt + 1) / p ≤ (cnt + 1 + es.length) / p := Nat.div_le_div_right (by omega)
    have harith : cnt + (es.length + 1) = cnt + 1 + es.length := by omega
    by_cases hp : (cnt + 1) % p = 0
    · rw [if_pos hp]
      rw [List.length_cons, ih (cnt + 1) _, List.length_cons, harith]
      have h1 : (cnt + 1) / p = cnt / p + 1 := by
        rw [hsucc, if_pos (hdvd.mpr hp)]
      rw [h1] at hmono2 ⊢
      generalize (cnt + 1 + es.length) / p = X at hmono2 ⊢
      generalize cnt / p = Y at hmono2 ⊢
      omega
    · rw [if_neg hp]
      rw [ih (cnt + 1) _, List.length_cons, harith]
      have h1 : (cnt + 1) / p = cnt / p := by
        rw [hsucc, if_neg (fun hd => hp (hdvd.mp hd)), Nat.add_zero]
      rw [h1]

/-! ### The builder invariant -/

theorem succ_mod (p n : Nat) (hp : 2 ≤ p) :
    (n + 1) % p = if n % p = p - 1 then 0 else n % p + 1 := by
  have hlt : n % p < p := Nat.mod_lt n (by omega)
  have h1 : (1 : Nat) % p = 1 := Nat.mod_eq_of_lt (by omega)
  rw [Nat.add_mod, h1]
  by_cases h : n % p = p - 1
  · rw [if_pos h, h, Nat.sub_add_cancel (by omega), Nat.mod_self]
  · rw [if_neg h, Nat.mod_eq_of_lt (by omega)]

theorem layerInsert_promo (c : BinarySerializable α) (l : LayerBuilder α)
    (d : Nat) (v : α) (h : l.remaining - 1 = 0) :
    l.insert c d v
      = ({ period := l.period, buffer := l.buffer ++ u32Bytes d ++ c.serialize v
           remaining := l.period, len := l.len + 1 }, some (d, l.buffer.length)) := by
  simp [LayerBuilder.insert, LayerBuilder.written_size, h]

theorem layerInsert_nopromo (c : BinarySerializable α) (l : LayerBuilder α)
    (d : Nat) (v : α) (h : l.remaining - 1 ≠ 0) :
    l.insert c d v
      = ({ period := l.period, buffer := l.buffer ++ u32Bytes d ++ c.serialize v
           remaining := l.remaining - 1, len := l.len + 1 }, none) := by
  simp [LayerBuilder.insert, LayerBuilder.written_size, h]

theorem encList_snoc (c : BinarySerializable α) (es : List (Nat × α)) (e : Nat × α) :
    encList c (es ++ [e]) = encList c es ++ (u32Bytes e.1 ++ c.serialize e.2) := by
  rw [encList_append]
  simp [encList, encEntry]

theorem promote_snoc (p : Nat) (c : BinarySerializable α) (es : List (Nat × α))
    (e : Nat × α) :
    promote p c (es ++ [e])
      = promote p c es
        ++ (if (es.length + 1) % p = 0 then [(e.1, (encList c es).length)] else []) := by
  rw [promote, promoteAux_snoc]
  simp only [Nat.zero_add]
  rfl

theorem insertLoop_matches (p : Nat) (hp : 2 ≤ p) :
    ∀ (layers : List (LayerBuilder Nat)) (es : List (Nat × Nat)) (d off : Nat),
    MatchesLayers p es layers →
    ∃ layers2, insertLoop p (layers.length + 1) layers d off = some layers2 ∧
      MatchesLayers p (es ++ [(d, off)]) layers2 := by
  intro layers
  induction layers with
  | nil =>
    intro es d off hm
    have hes : es = [] := hm
    subst hes
    have hrem : (LayerBuilder.with_period p : LayerBuilder Nat).remaining - 1 ≠ 0 := by
      show p - 1 ≠ 0
      omega
    have h1p : 1 % p = 1 := Nat.mod_eq_of_lt (by omega)
    refine ⟨[((LayerBuilder.with_period p : LayerBuilder Nat).insert u32Ser d off).1],
      ?_, ?_⟩
    · show insertLoop p 1 [] d off = _
      rw [insertLoop]
      simp only [layerInsert_nopromo u32Ser _ d off hrem]
    · simp only [layerInsert_nopromo u32Ser _ d off hrem]
      refine ⟨by simp, rfl, ?_, rfl, ?_, ?_⟩
      · simp [LayerBuilder.with_period, encList, encEntry, u32Ser]
      · simp [LayerBuilder.with_period, h1p]
      · show MatchesLayers p (promote p u32Ser ([] ++ [(d, off)])) []
        show promote p u32Ser [(d, off)] = []
        have hne0 : (0 + 1) % p ≠ 0 := by rw [Nat.zero_add, h1p]; omega
        simp only [promote, promoteAux, if_neg hne0]
  | cons l rest ih =>
    intro es d off hm
    obtain ⟨hne, hper, hbuf, hlen, hrem, hrest⟩ := hm
    have hn1 : 1 ≤ es.length := by
      match es, hne with
      | e :: es, _ => simp
    have hmodlt : es.length % p < p := Nat.mod_lt _ (by omega)
    have hsnocbuf : l.buffer ++ u32Bytes d ++ u32Bytes off
        = encList u32Ser (es ++ [(d, off)]) := by
      rw [encList_snoc, hbuf]
      show encList u32Ser es ++ u32Bytes d ++ _ = _
      rw [List.append_assoc]
      rfl
    have hsnoclen : l.len + 1 = (es ++ [(d, off)]).length := by
      rw [List.length_append, hlen]
      rfl
    by_cases hpr : l.remaining - 1 = 0
    · -- the inserted entry is itself promoted to the next layer up
      have hmod : es.length % p = p - 1 := by rw [hrem] at hpr; omega
      have hmod1 : (es.length + 1) % p = 0 := by
        rw [succ_mod p _ hp, if_pos hmod]
      obtain ⟨rest2, hloop, hm2⟩ :=
        ih (promote p u32Ser es) d (encList u32Ser es).length hrest
      refine ⟨(l.insert u32Ser d off).1 :: rest2, ?_, ?_⟩
      · show insertLoop p (rest.length + 1 + 1) (l :: rest) d off = _
        rw [insertLoop]
        simp only [layerInsert_promo u32Ser l d off hpr, hbuf, hloop]
        rfl
      · simp only [layerInsert_promo u32Ser l d off hpr]
        refine ⟨by simp, by rw [← hper], hsnocbuf, hsnoclen, ?_, ?_⟩
        · show l.period = p - (es ++ [(d, off)]).length % p
          rw [List.length_append]
          show l.period = p - (es.length + 1) % p
          rw [hmod1, hper]
          rfl
        · rw [promote_snoc, if_pos hmod1]
          exact hm2
    · -- no further promotion: the cascade stops at this layer
      have hmod : es.length % p ≠ p - 1 := fun hcon => by
        rw [hrem, hcon] at hpr
        omega
      have hmod1 : (es.length + 1) % p = es.length % p + 1 := by
        rw [succ_mod p _ hp, if_neg hmod]
      refine ⟨(l.insert u32Ser d off).1 :: rest, ?_, ?_⟩
      · show insertLoop p (rest.length + 1 + 1) (l :: rest) d off = _
        rw [insertLoop]
        simp only [layerInsert_nopromo u32Ser l d off hpr]
      · simp only [layerInsert_nopromo u32Ser l d off hpr]
        refine ⟨by simp, by rw [← hper], hsnocbuf, hsnoclen, ?_, ?_⟩
        · show l.remaining - 1 = p - (es ++ [(d, off)]).length % p
          rw [List.length_append]
          show l.remaining - 1 = p - (es.length + 1) % p
          rw [hmod1, hrem]
          omega
        · rw [promote_snoc, if_neg (by rw [hmod1]; omega)]
          rw [List.append_nil]
          exact hrest

/-- The reachable-state invariant of the whole builder after inserting the
entries `es` in order: the data layer holds the records of `es`, its counters
agree with `es.length`, and the skip layers match the iterated promoted
subsamples of `es`. -/
def BuilderInv (c : BinarySerializable α) (p : Nat) (es : List (Nat × α))
    (b : SkipListBuilder α) : Prop :=
  b.period = p ∧ b.data_layer.period = p ∧
  b.data_layer.buffer = encList c es ∧ b.data_layer.len = es.length ∧
  b.data_layer.remaining = p - es.length % p ∧
  MatchesLayers p (promote p c es) b.skip_layers

theorem builderInv_new (c : BinarySerializable α) (p : Nat) :
    BuilderInv c p [] (SkipListBuilder.new p) := by
  refine ⟨rfl, rfl, rfl, rfl, ?_, ?_⟩
  · show p = p - 0 % p
    rw [Nat.zero_mod, Nat.sub_zero]
  · show promote p c [] = []
    rfl

theorem insert_step (c : BinarySerializable α) (p : Nat) (hp : 2 ≤ p)
    (es : List (Nat × α)) (b : SkipListBuilder α) (d : Nat) (v : α)
    (hinv : BuilderInv c p es b) :
    ∃ b2, b.insert c d v = some b2 ∧ BuilderInv c p (es ++ [(d, v)]) b2 := by
  obtain ⟨hbp, hper, hbuf, hlen, hrem, hm⟩ := hinv
  have hmodlt : es.length % p < p := Nat.mod_lt _ (by omega)
  have hsnocbuf : b.data_layer.buffer ++ u32Bytes d ++ c.serialize v
      = encList c (es ++ [(d, v)]) := by
    rw [encList_snoc, hbuf, List.append_assoc]
  have hsnoclen : b.data_layer.len + 1 = (es ++ [(d, v)]).length := by
    rw [List.length_append, hlen]
    rfl
  by_cases hpr : b.data_layer.remaining - 1 = 0
  · have hmod : es.length % p = p - 1 := by rw [hrem] at hpr; omega
    have hmod1 : (es.length + 1) % p = 0 := by
      rw [succ_mod p _ hp, if_pos hmod]
    obtain ⟨layers2, hloop, hm2⟩ :=
      insertLoop_matches p hp b.skip_layers (promote p c es) d
        (encList c es).length hm
    refine ⟨{ b with data_layer := (b.data_layer.insert c d v).1, skip_layers := layers2 }, ?_, ?_⟩
    · rw [SkipListBuilder.insert]
      simp only [layerInsert_promo c _ d v hpr, hbuf, hbp, hloop]
      rfl
    · simp only [layerInsert_promo c _ d v hpr]
      refine ⟨hbp, hper, hsnocbuf, hsnoclen, ?_, ?_⟩
      · show b.data_layer.period = p - (es ++ [(d, v)]).length % p
        rw [List.length_append]
        show b.data_layer.period = p - (es.length + 1) % p
        rw [hmod1, hper]
        rfl
    
      · show MatchesLayers p (promote p c (es ++ [(d, v)])) layers2
        rw [promote_snoc, if_pos hmod1]
        exact hm2
  · have hmod : es.length % p ≠ p - 1 := fun hcon => by
      rw [hrem, hcon] at hpr
      omega
    have hmod1 : (es.length + 1) % p = es.length % p + 1 := by
      rw [succ_mod p _ hp, if_neg hmod]
    refine ⟨{ b with data_layer := (b.data_layer.insert c d v).1 }, ?_, ?_⟩
    · rw [SkipListBuilder.insert]
      simp only [layerInsert_nopromo c _ d v hpr]
    · simp only [layerInsert_nopromo c _ d v hpr]
      refine ⟨hbp, hper, hsnocbuf, hsnoclen, ?_, ?_⟩
      · show b.data_layer.remaining - 1 = p - (es ++ [(d, v)]).length % p
        rw [List.length_append]
        show b.data_layer.remaining - 1 = p - (es.length + 1) % p
        rw [hmod1, hrem]
        omega
      · show MatchesLayers p (promote p c (es ++ [(d, v)])) b.skip_layers
        rw [promote_snoc, if_neg (by rw [hmod1]; omega), List.append_nil]
        exact hm

theorem insertAll_inv_aux (c : BinarySerializable α) (p : Nat) (hp : 2 ≤ p) :
    ∀ (es : List (Nat × α)) (es0 : List (Nat × α)) (b0 b : SkipListBuilder α),
    BuilderInv c p es0 b0 → insertAll c b0 es = some b →
    BuilderInv c p (es0 ++ es) b := by
  intro es
  induction es with
  | nil =>
    intro es0 b0 b hinv hall
    have hb : b0 = b := by
      have : some b0 = some b := hall
      exact Option.some.inj this
    rw [List.append_nil, ← hb]
    exact hinv
  | cons e rest ih =>
    intro es0 b0 b hinv hall
    obtain ⟨b1, hins, hinv1⟩ := insert_step c p hp es0 b0 e.1 e.2 hinv
    rw [insertAll] at hall
    simp only [hins] at hall
    have := ih (es0 ++ [e]) b1 b hinv1 hall
    have heta : es0 ++ [(e.1, e.2)] = es0 ++ [e] := rfl
    rw [heta] at this
    rwa [List.append_assoc] at this

/-- The builder invariant for a skip list built from scratch. -/
theorem insertAll_inv (c : BinarySerializable α) (p : Nat) (hp : 2 ≤ p)
    (es : List (Nat × α)) (b : SkipListBuilder α)
    (hall : insertAll c (SkipListBuilder.new p) es = some b) :
    BuilderInv c p es b := by
  have := insertAll_inv_aux c p hp es [] (SkipListBuilder.new p) b
    (builderInv_new c p) hall
  rwa [List.nil_append] at this

/-! ### Serialization round-trip of the header, and slicing the layers -/

theorem readNU32_enc (xs : List Nat) :
    ∀ (rest : List Nat), (∀ x ∈ xs, x < 4294967296) →
    readNU32 xs.length ((xs.map u32Bytes).flatten ++ rest) = some xs := by
  induction xs with
  | nil => intro rest _; rfl
  | cons x xs ih =>
    intro rest hx
    show readNU32 (xs.length + 1) ((u32Bytes x ++ (xs.map u32Bytes).flatten) ++ rest) = _
    rw [List.append_assoc]
    rw [readNU32, readU32_u32Bytes x (hx x (List.mem_cons_self _ _)),
      drop_u32Bytes_append, ih rest (fun y hy => hx y (List.mem_cons_of_mem _ hy))]
    rfl

theorem serVecU32_length (xs : List Nat) :
    (serVecU32 xs).length = 4 + 4 * xs.length := by
  rw [serVecU32, List.length_append, u32Bytes_length, List.length_flatten]
  congr 1
  induction xs with
  | nil => rfl
  | cons x xs ih =>
    show ((u32Bytes x :: (xs.map u32Bytes)).map List.length).sum = 4 * (xs.length + 1)
    rw [List.map_cons, List.sum_cons, u32Bytes_length]
    rw [show ((xs.map u32Bytes).map List.length).sum = 4 * xs.length from ih]
    omega

theorem readVecU32_serVecU32 (xs : List Nat) (rest : List Nat)
    (hx : ∀ x ∈ xs, x < 4294967296) (hlen : xs.length < 4294967296) :
    readVecU32 (serVecU32 xs ++ rest) = some (xs, 4 + 4 * xs.length) := by
  have h1 : readU32 (serVecU32 xs ++ rest) = some xs.length := by
    rw [serVecU32, List.append_assoc]
    exact readU32_u32Bytes xs.length hlen _
  have h2 : (serVecU32 xs ++ rest).drop 4 = (xs.map u32Bytes).flatten ++ rest := by
    rw [serVecU32, List.append_assoc]
    exact drop_u32Bytes_append _ _
  simp only [readVecU32, h1, h2, readNU32_enc xs rest hx]

theorem drop_serVecU32 (xs rest : List Nat) :
    (serVecU32 xs ++ rest).drop (4 + 4 * xs.length) = rest := by
  rw [← serVecU32_length xs, List.drop_left]

theorem cumSizes_length (s : Nat) (xs : List Nat) :
    (cumSizes s xs).length = xs.length := by
  induction xs generalizing s with
  | nil => rfl
  | cons x xs ih =>
    show (cumSizes (s + x) xs).length + 1 = xs.length + 1
    rw [ih]

theorem cumSizes_mem_le (xs : List Nat) :
    ∀ (s : Nat) (y : Nat), y ∈ cumSizes s xs → y ≤ s + xs.sum := by
  induction xs with
  | nil => intro s y hy; exact absurd hy (by simp [cumSizes])
  | cons x xs ih =>
    intro s y hy
    rcases List.mem_cons.mp hy with h | h
    · rw [h, List.sum_cons]; omega
    · have := ih (s + x) y h
      rw [List.sum_cons]
      omega

/-- Slicing the concatenated layer bytes at consecutive cumulative offsets
recovers the individual layer buffers. -/
theorem sliceZip (bufs : List (List Nat)) :
    ∀ (s : Nat) (data : List Nat), data.drop s = bufs.flatten →
    ((s :: cumSizes s (bufs.map List.length)).zip (cumSizes s (bufs.map List.length))).map
      (fun se => (data.drop se.1).take (se.2 - se.1)) = bufs := by
  induction bufs with
  | nil => intro s data _; rfl
  | cons b rest ih =>
    intro s data hdrop
    show ((s :: (s + b.length) :: cumSizes (s + b.length) (rest.map List.length)).zip
        ((s + b.length) :: cumSizes (s + b.length) (rest.map List.length))).map _ = b :: rest
    rw [List.zip_cons_cons, List.map_cons]
    congr 1
    · show (data.drop s).take (s + b.length - s) = b
      rw [hdrop, show s + b.length - s = b.length by omega]
      exact List.take_left b rest.flatten
    · refine ih (s + b.length) data ?_
      rw [← List.drop_drop, hdrop]
      exact List.drop_left b rest.flatten

/-- Reading back what the builder wrote: the data-layer cursor is over exactly
the data-layer buffer, and the skip-layer cursors are over exactly the
skip-layer buffers, reversed (topmost first).  The size bound keeps the `u32`
cumulative offsets in the header exact. -/
theorem skipList_read_write (b : SkipListBuilder α)
    (hsz : b.write.length < 4294967296) :
    SkipList.read b.write
      = some ({ data_layer := Layer.read b.data_layer.buffer
                skip_layers := (b.skip_layers.map (fun l => Layer.read l.buffer)).reverse } :
          SkipList α) := by
  have hsizes : b.layer_sizes
      = b.data_layer.buffer.length
        :: cumSizes b.data_layer.buffer.length (b.skip_layers.map (fun l => l.buffer.length)) := by
    rw [SkipListBuilder.layer_sizes, cumSizes, Nat.zero_add]
  have hflat : ((b.skip_layers.map (fun l => l.buffer)).flatten).length
      = (b.skip_layers.map (fun l => l.buffer.length)).sum := by
    rw [List.length_flatten, List.map_map]
    rfl
  have hlenw : b.write.length
      = 4 + 4 * b.layer_sizes.length + b.data_layer.buffer.length
        + ((b.skip_layers.map (fun l => l.buffer.length)).sum) := by
    rw [SkipListBuilder.write, List.append_assoc, List.length_append, serVecU32_length,
      List.length_append, hflat]
    omega
  have hsum : b.layer_sizes.length = b.skip_layers.length + 1 := by
    rw [hsizes, List.length_cons, cumSizes_length, List.length_map]
  have hxbound : ∀ x ∈ b.layer_sizes, x < 4294967296 := by
    intro x hx
    rw [hsizes] at hx
    rcases List.mem_cons.mp hx with h | h
    · omega
    · have := cumSizes_mem_le _ _ _ h
      omega
  have hlenbound : b.layer_sizes.length < 4294967296 := by omega
  have hvec : readVecU32 b.write = some (b.layer_sizes, 4 + 4 * (b.skip_layers.length + 1)) := by
    rw [← hsum, SkipListBuilder.write, List.append_assoc]
    exact readVecU32_serVecU32 _ _ hxbound hlenbound
  have hlayersdata : b.write.drop (4 + 4 * (b.skip_layers.length + 1))
      = b.data_layer.buffer ++ (b.skip_layers.map (fun l => l.buffer)).flatten := by
    rw [← hsum, SkipListBuilder.write, List.append_assoc]
    exact drop_serVecU32 _ _
  have htake : (b.write.drop (4 + 4 * (b.skip_layers.length + 1))).take
      b.data_layer.buffer.length = b.data_layer.buffer := by
    rw [hlayersdata]
    exact List.take_left _ _
  have hmaplen : (b.skip_layers.map (fun l => l.buffer)).map List.length
      = b.skip_layers.map (fun l => l.buffer.length) := by
    rw [List.map_map]
    rfl
  have hslices := sliceZip (b.skip_layers.map (fun l => l.buffer))
    b.data_layer.buffer.length (b.write.drop (4 + 4 * (b.skip_layers.length + 1)))
    (by rw [hlayersdata]
        exact List.drop_left _ _)
  rw [hmaplen] at hslices
  have hzipmap : ((b.data_layer.buffer.length
        :: cumSizes b.data_layer.buffer.length (b.skip_layers.map (fun l => l.buffer.length))).zip
      (cumSizes b.data_layer.buffer.length (b.skip_layers.map (fun l => l.buffer.length)))).map
        (fun se => Layer.read (α := Nat)
          (((b.write.drop (4 + 4 * (b.skip_layers.length + 1))).drop se.1).take (se.2 - se.1)))
      = b.skip_layers.map (fun l => Layer.read (α := Nat) l.buffer) := by
    have h2 := congrArg (List.map (Layer.read (α := Nat))) hslices
    rw [List.map_map, List.map_map] at h2
    exact h2
  simp only [SkipList.read, hvec, hsizes]
  rw [if_pos (by simp)]
  rw [List.tail_cons, hzipmap]
  rw [htake]

theorem skipList_drain_eq (c : BinarySerializable α) :
    ∀ (fuel : Nat) (sk : SkipList α),
    SkipList.drain c fuel sk = Layer.drain c fuel sk.data_layer := by
  intro fuel
  induction fuel with
  | zero => intro sk; rfl
  | succ fuel ih =>
    intro sk
    rw [SkipList.drain, Layer.drain, SkipList.next]
    match h : sk.data_layer.next c with
    | none => rfl
    | some (e, l2) =>
      simp only
      rw [ih { sk with data_layer := l2 }]

/-- C2: building a skip list from strictly ascending `(doc_id, value)` pairs
(`doc_id < DocId::MAX`) with period `≥ 2`, serializing it with
`SkipListBuilder::write`, reading the bytes back with `SkipList::read` and
iterating with `next` yields exactly the input sequence and then `None` (the
fuel `es.length + 1` forces the extra terminating `next` call to return
`None`).  The value codec must decode its own encodings (`DeserVal`), and the
serialized size must fit the `u32` offset header. -/
theorem skiplist_roundtrip
    (c : BinarySerializable α) (p : Nat) (es : List (Nat × α))
    (b : SkipListBuilder α) (sk : SkipList α)
    (hp : 2 ≤ p)
    (hasc : es.Pairwise (fun a b => a.1 < b.1))
    (hkeys : ∀ e ∈ es, e.1 < U32MAX)
    (hvals : ∀ e ∈ es, DeserVal c e.2)
    (hall : insertAll c (SkipListBuilder.new p) es = some b)
    (hsz : b.write.length < 4294967296)
    (hread : SkipList.read b.write = some sk) :
    SkipList.drain c (es.length + 1) sk = es := by
  obtain ⟨-, -, hbuf, -, -, -⟩ := insertAll_inv c p hp es b hall
  rw [skipList_read_write b hsz] at hread
  have hsk := Option.some.inj hread
  rw [skipList_drain_eq, ← hsk]
  show Layer.drain c (es.length + 1) (Layer.read b.data_layer.buffer) = es
  rw [hbuf]
  exact readsAs_drain c es (Layer.read (encList c es)) (es.length + 1)
    (readsAs_read c es hkeys) hvals hkeys (by omega)

/-- Witness for C2 at a concrete input: period 2, entries
`(2,3), (5,7), (9,11)` with the `u32` payload codec. -/
theorem skiplist_roundtrip_witness :
    SkipList.drain u32Ser 4
      ((SkipList.read
        ((insertAll u32Ser (SkipListBuilder.new 2) [(2,3),(5,7),(9,11)]).getD
          (SkipListBuilder.new 2)).write).getD
        { data_layer := Layer.empty, skip_layers := [] })
      = [(2,3),(5,7),(9,11)] :=
  skiplist_roundtrip u32Ser 2 [(2,3),(5,7),(9,11)]
    ((insertAll u32Ser (SkipListBuilder.new 2) [(2,3),(5,7),(9,11)]).getD
      (SkipListBuilder.new 2))
    ((SkipList.read
        ((insertAll u32Ser (SkipListBuilder.new 2) [(2,3),(5,7),(9,11)]).getD
          (SkipListBuilder.new 2)).write).getD
        { data_layer := Layer.empty, skip_layers := [] })
    (by decide)
    (by decide)
    (by decide)
    (by intro e he
        fin_cases he <;> exact deserVal_u32 _ (by decide))
    (by rfl)
    (by decide)
    (by rfl)

/-- C5 counterexample: the claim predicts that an empty builder serializes as
an empty `Vec<u32>` header and nothing else, i.e. the 4 bytes `00 00 00 00`;
the code instead always pushes the data-layer size (0) into the cumulative
vector, producing the 8 bytes `00 00 00 01 00 00 00 00`. -/
theorem empty_write_not_empty_vec :
    (SkipListBuilder.new 10 : SkipListBuilder Nat).write ≠ serVecU32 [] := by
  decide

/-- C5 (amended): an empty builder writes a one-element cumulative-sizes
vector `[0]` and no layer bytes, for every period and payload type. -/
theorem empty_write_eq (α : Type) (p : Nat) :
    (SkipListBuilder.new p : SkipListBuilder α).write = serVecU32 [0] := by
  show serVecU32 ((SkipListBuilder.new p : SkipListBuilder α).layer_sizes) ++ [] ++ [] = _
  rw [List.append_nil, List.append_nil]
  rfl

/-! ### C6: skip-layer pointer invariant -/

/-- Iterated promotion starting from a first-skip-layer entry list. -/
def promoteIter (p : Nat) (E : List (Nat × Nat)) : Nat → List (Nat × Nat)
  | 0 => E
  | i + 1 => promote p u32Ser (promoteIter p E i)

theorem promoteIter_shift (p : Nat) (E : List (Nat × Nat)) :
    ∀ i, promoteIter p (promote p u32Ser E) i = promoteIter p E (i + 1) := by
  intro i
  induction i with
  | zero => rfl
  | succ i ih =>
    show promote p u32Ser (promoteIter p (promote p u32Ser E) i) = _
    rw [ih]
    rfl

theorem skipLevel_eq_promoteIter (p : Nat) (c : BinarySerializable α)
    (es : List (Nat × α)) :
    ∀ i, skipLevel p c es i = promoteIter p (promote p c es) i := by
  intro i
  induction i with
  | zero => rfl
  | succ i ih =>
    show promote p u32Ser (skipLevel p c es i) = promote p u32Ser (promoteIter p (promote p c es) i)
    rw [ih]

theorem matchesLayers_get (p : Nat) :
    ∀ (layers : List (LayerBuilder Nat)) (E : List (Nat × Nat)),
    MatchesLayers p E layers →
    ∀ i (hi : i < layers.length),
    (layers.get ⟨i, hi⟩).buffer = encList u32Ser (promoteIter p E i) := by
  intro layers
  induction layers with
  | nil => intro E _ i hi; exact absurd hi (by simp)
  | cons l rest ih =>
    intro E hm i hi
    obtain ⟨-, -, hbuf, -, -, hrest⟩ := hm
    match i with
    | 0 => exact hbuf
    | i + 1 =>
      have := ih (promote p u32Ser E) hrest i (by simpa using Nat.lt_of_succ_lt_succ hi)
      rw [show ((l :: rest).get ⟨i + 1, hi⟩)
          = rest.get ⟨i, by simp only [List.length_cons] at hi; omega⟩ from rfl]
      rw [this, promoteIter_shift]

/-- C6: after any successful sequence of strictly ascending inserts with
period `≥ 2`, every skip layer `i` of the builder holds exactly the records
of the `i`-th iterated promoted subsample `skipLevel p c es i`, and every
entry `(key, offset)` of a skip level points at an entry of the level below
(the data entries `es` for the first skip level) carrying the same key and
beginning exactly at byte `offset` of that lower layer's buffer. -/
theorem skip_layer_pointer_invariant
    (c : BinarySerializable α) (p : Nat) (es : List (Nat × α))
    (b : SkipListBuilder α)
    (hp : 2 ≤ p)
    (hall : insertAll c (SkipListBuilder.new p) es = some b) :
    (∀ i (hi : i < b.skip_layers.length),
        (b.skip_layers.get ⟨i, hi⟩).buffer = encList u32Ser (skipLevel p c es i))
    ∧ (∀ x ∈ skipLevel p c es 0, ∃ j, ∃ hj : j < es.length,
        x = ((es.get ⟨j, hj⟩).1, (encList c (es.take j)).length))
    ∧ (∀ i, ∀ x ∈ skipLevel p c es (i + 1),
        ∃ j, ∃ hj : j < (skipLevel p c es i).length,
        x = (((skipLevel p c es i).get ⟨j, hj⟩).1,
          (encList u32Ser ((skipLevel p c es i).take j)).length)) := by
  obtain ⟨-, -, -, -, -, hm⟩ := insertAll_inv c p hp es b hall
  refine ⟨?_, ?_, ?_⟩
  · intro i hi
    rw [skipLevel_eq_promoteIter]
    exact matchesLayers_get p b.skip_layers (promote p c es) hm i hi
  · intro x hx
    obtain ⟨j, hj, hx2⟩ := promoteAux_shape p c es 0 0 x hx
    exact ⟨j, hj, by rw [hx2, Nat.zero_add]⟩
  · intro i x hx
    obtain ⟨j, hj, hx2⟩ := promoteAux_shape p u32Ser (skipLevel p c es i) 0 0 x hx
    exact ⟨j, hj, by rw [hx2, Nat.zero_add]⟩

/-! ### C10: termination of the promotion cascade -/

theorem insertLoop_total (p : Nat) (hp : 2 ≤ p) :
    ∀ (layers : List (LayerBuilder Nat)) (d off : Nat),
    (insertLoop p (layers.length + 1) layers d off).isSome = true := by
  intro layers
  induction layers with
  | nil =>
    intro d off
    have hrem : (LayerBuilder.with_period p : LayerBuilder Nat).remaining - 1 ≠ 0 := by
      show p - 1 ≠ 0
      omega
    show (insertLoop p 1 [] d off).isSome = true
    rw [insertLoop]
    simp only [layerInsert_nopromo u32Ser _ d off hrem]
    rfl
  | cons l rest ih =>
    intro d off
    show (insertLoop p (rest.length + 1 + 1) (l :: rest) d off).isSome = true
    rw [insertLoop]
    by_cases hpr : l.remaining - 1 = 0
    · simp only [layerInsert_promo u32Ser l d off hpr]
      cases hin : insertLoop p (rest.length + 1) rest d l.buffer.length with
      | none =>
        have h2 := ih d l.buffer.length
        rw [hin] at h2
        simp at h2
      | some ls => rfl
    · simp only [layerInsert_nopromo u32Ser l d off hpr]
      rfl

theorem promote_length (p : Nat) (c : BinarySerializable α) (es : List (Nat × α)) :
    (promote p c es).length = es.length / p := by
  rw [promote, promoteAux_length, Nat.zero_add, Nat.zero_div, Nat.sub_zero]

theorem matchesLayers_pow (p : Nat) (hp : 2 ≤ p) :
    ∀ (layers : List (LayerBuilder Nat)) (E : List (Nat × Nat)),
    MatchesLayers p E layers → layers ≠ [] →
    p ^ (layers.length - 1) ≤ E.length := by
  intro layers
  induction layers with
  | nil => intro E _ h; exact absurd rfl h
  | cons l rest ih =>
    intro E hm _
    obtain ⟨hne, -, -, -, -, hrest⟩ := hm
    by_cases hnil : rest = []
    · subst hnil
      have h1 : 1 ≤ E.length := by
        match E, hne with
        | e :: E, _ => simp
      simpa using h1
    · have hIH := ih (promote p u32Ser E) hrest hnil
      rw [promote_length] at hIH
      have hmul : p ^ (rest.length - 1) * p ≤ E.length :=
        (Nat.le_div_iff_mul_le (by omega)).mp hIH
      show p ^ ((l :: rest).length - 1) ≤ E.length
      rw [List.length_cons, Nat.add_sub_cancel]
      have hlen1 : 1 ≤ rest.length := by
        match rest, hnil with
        | r :: rest, _ => simp
      calc p ^ rest.length = p ^ (rest.length - 1) * p := by
            rw [← pow_succ]
            congr 1
            omega
        _ ≤ E.length := hmul

/-- C10: for every builder state reachable by inserting a strictly ascending
sequence with period `≥ 2`, the next `SkipListBuilder::insert` terminates (the
fuelled promotion cascade returns a result within `skip_layers.length + 1`
steps), and the number of skip layers is logarithmically bounded:
`p ^ skip_layers.length ≤ es.length` whenever any skip layer exists, because
each layer holds only every `p`-th entry of the layer below. -/
theorem insert_terminates
    (c : BinarySerializable α) (p : Nat) (es : List (Nat × α))
    (b : SkipListBuilder α)
    (hp : 2 ≤ p)
    (hall : insertAll c (SkipListBuilder.new p) es = some b) :
    (∀ (d : Nat) (v : α), (b.insert c d v).isSome = true)
    ∧ (b.skip_layers ≠ [] → p ^ b.skip_layers.length ≤ es.length) := by
  obtain ⟨hbp, -, -, -, -, hm⟩ := insertAll_inv c p hp es b hall
  constructor
  · intro d v
    rw [SkipListBuilder.insert]
    by_cases hpr : b.data_layer.remaining - 1 = 0
    · simp only [layerInsert_promo c _ d v hpr, hbp]
      cases hin : insertLoop p (b.skip_layers.length + 1) b.skip_layers d
          b.data_layer.buffer.length with
      | none =>
        have h2 := insertLoop_total p hp b.skip_layers d b.data_layer.buffer.length
        rw [hin] at h2
        simp at h2
      | some ls => rfl
    · simp only [layerInsert_nopromo c _ d v hpr]
      rfl
  · intro hne
    have h1 := matchesLayers_pow p hp b.skip_layers (promote p c es) hm hne
    rw [promote_length] at h1
    have hmul : p ^ (b.skip_layers.length - 1) * p ≤ es.length :=
      (Nat.le_div_iff_mul_le (by omega)).mp h1
    have hlen1 : 1 ≤ b.skip_layers.length := by
      match b.skip_layers, hne with
      | l :: ls, _ => simp
    calc p ^ b.skip_layers.length = p ^ (b.skip_layers.length - 1) * p := by
          rw [← pow_succ]
          congr 1
          omega
      _ ≤ es.length := hmul

/-- Witness for C10 at a concrete reachable state: period 2, four inserts,
which produce two skip layers. -/
theorem insert_terminates_witness :
    ((((insertAll u32Ser (SkipListBuilder.new 2) [(0,0),(1,1),(2,2),(3,3)]).getD
      (SkipListBuilder.new 2)).insert u32Ser 10 10).isSome = true)
    ∧ 2 ^ ((insertAll u32Ser (SkipListBuilder.new 2) [(0,0),(1,1),(2,2),(3,3)]).getD
      (SkipListBuilder.new 2)).skip_layers.length ≤ 4 :=
  ⟨(insert_terminates u32Ser 2 [(0,0),(1,1),(2,2),(3,3)] _ (by decide) (by rfl)).1 10 10,
   (insert_terminates u32Ser 2 [(0,0),(1,1),(2,2),(3,3)] _ (by decide) (by rfl)).2
     (fun hcon => absurd (congrArg List.length hcon) (by decide))⟩

/-! ### C1: seek correctness -/

theorem mem_of_getLast?_eq (l : List β) (a : β) (h : l.getLast? = some a) : a ∈ l := by
  obtain ⟨hne, rfl⟩ := List.mem_getLast?_eq_getLast (show a ∈ l.getLast? from h)
  exact List.getLast_mem hne

theorem layer_read_data (bs : List Nat) : (Layer.read bs : Layer α).data = bs := by
  rw [Layer.read]
  cases readU32 bs <;> rfl

theorem readsAs_next_head (c : BinarySerializable α) (l : Layer α) (es : List (Nat × α))
    (h : ReadsAs c l es)
    (hv : ∀ e ∈ es, DeserVal c e.2) (hk : ∀ e ∈ es, e.1 < U32MAX) :
    (l.next c).map Prod.fst = es.head? := by
  match es with
  | [] => rw [readsAs_next_nil c l h]; rfl
  | (d, v) :: rest =>
    obtain ⟨l2, hnext, -⟩ := readsAs_next_cons c l d v rest h
      (hv (d, v) (List.mem_cons_self _ _)) (fun x hx => hk x (List.mem_cons_of_mem _ hx))
    rw [hnext]
    rfl

theorem head?_dropWhile_eq_find? (t : Nat) (es : List (Nat × α)) :
    (es.dropWhile (fun e => decide (e.1 < t))).head?
      = es.find? (fun e => decide (t ≤ e.1)) := by
  induction es with
  | nil => rfl
  | cons e rest ih =>
    by_cases ht : e.1 < t
    · have hd : decide (t ≤ e.1) = false := by
        simp only [decide_eq_false_iff_not]
        omega
      rw [List.dropWhile_cons, if_pos (by simpa using ht), ih, List.find?_cons]
      simp only [hd]
    · have hd : decide (t ≤ e.1) = true := by
        simp only [decide_eq_true_eq]
        omega
      rw [List.dropWhile_cons, if_neg (by simpa using ht), List.find?_cons]
      simp only [hd]
      rfl

/-- The body of one iteration of the `SkipList::seek` layer loop: reposition a
freshly read layer at the promotion pointer handed down from the layer above
(whose entries are `promote p c L`), seek it, and obtain the pointer for the
layer below.  The result is the last entry of the *whole* layer whose key is
below the target. -/
theorem layer_step (c : BinarySerializable α) (p t : Nat) (L : List (Nat × α))
    (hk : ∀ e ∈ L, e.1 < U32MAX)
    (hv : ∀ e ∈ L, DeserVal c e.2)
    (hasc : L.Pairwise (fun a b => a.1 < b.1))
    (ptr : Option (Nat × Nat))
    (hptr : ptr = ((promote p c L).takeWhile (fun e => decide (e.1 < t))).getLast?) :
    ∃ l2,
      (match ptr with
        | some pr => (Layer.read (encList c L)).seek_offset pr.2
        | none => Layer.read (encList c L)).seek c t
        = ((L.takeWhile (fun e => decide (e.1 < t))).getLast?, l2)
      ∧ ReadsAs c l2 (L.dropWhile (fun e => decide (e.1 < t))) := by
  match ptr with
  | none =>
    exact readsAs_seek c t L (Layer.read (encList c L)) (readsAs_read c L hk) hv hk
  | some pr =>
    have hmemtw : pr ∈ (promote p c L).takeWhile (fun e => decide (e.1 < t)) :=
      mem_of_getLast?_eq _ _ hptr.symm
    have hprt : pr.1 < t := by
      have := List.mem_takeWhile_imp hmemtw
      simpa using this
    have hmem : pr ∈ promote p c L := (List.takeWhile_sublist _).mem hmemtw
    obtain ⟨j, hj, hpr2⟩ := promoteAux_shape p c L 0 0 pr hmem
    have hkey : pr.1 = (L.get ⟨j, hj⟩).1 := by rw [hpr2]
    have hoff : pr.2 = (encList c (L.take j)).length := by rw [hpr2]; simp
    have hkeyt : (L.get ⟨j, hj⟩).1 < t := hkey ▸ hprt
    -- the landing state reads the entries from index j on
    have hreads : ReadsAs c ((Layer.read (encList c L)).seek_offset pr.2) (L.drop j) := by
      rw [hoff]
      exact seek_offset_readsAs c L (Layer.read (encList c L)) (layer_read_data _) hk j
    have hdropj : L.drop j = L.get ⟨j, hj⟩ :: L.drop (j + 1) := List.drop_eq_get_cons hj
    -- every entry before index j is below the key at j, hence below t
    have htakelt : ∀ x ∈ L.take j, decide (x.1 < t) = true := by
      intro x hx
      have hsplit : L.Pairwise (fun a b => a.1 < b.1) := hasc
      rw [← List.take_append_drop j L, List.pairwise_append] at hsplit
      have hxj : x.1 < (L.get ⟨j, hj⟩).1 := by
        refine hsplit.2.2 x hx _ ?_
        rw [hdropj]
        exact List.mem_cons_self _ _
      simp
      omega
    obtain ⟨l2, hseek, hreads2⟩ := readsAs_seek c t (L.drop j) _ hreads
      (fun x hx => hv x (List.mem_of_mem_drop hx))
      (fun x hx => hk x (List.mem_of_mem_drop hx))
    refine ⟨l2, ?_, ?_⟩
    · rw [hseek]
      congr 1
      -- getLast? over the whole layer's takeWhile equals getLast? from index j
      conv_rhs => rw [← List.take_append_drop j L]
      rw [takeWhile_append_all _ _ _ htakelt]
      rw [getLast?_append_ne_nil]
      rw [hdropj, List.takeWhile_cons, if_pos (by simpa using hkeyt)]
      simp
    · conv_rhs => rw [← List.take_append_drop j L]
      rw [dropWhile_append_all _ _ _ htakelt]
      exact hreads2

/-- The ghost entry lists of the skip layers, bottom-up: `E` is the first
skip layer (fed by the data layer), each further level the promoted
subsample of the one before, `n` levels in total. -/
def levelsList (p : Nat) : Nat → List (Nat × Nat) → List (List (Nat × Nat))
  | 0, _ => []
  | n + 1, E => E :: levelsList p n (promote p u32Ser E)

theorem seekLayers_append (t : Nat) (as : List (Layer Nat)) :
    ∀ (bs : List (Layer Nat)) (ptr : Option (Nat × Nat)),
    seekLayers t (as ++ bs) ptr
      = ((seekLayers t as ptr).1 ++ (seekLayers t bs (seekLayers t as ptr).2).1,
         (seekLayers t bs (seekLayers t as ptr).2).2) := by
  induction as with
  | nil => intro bs ptr; rfl
  | cons a as ih =>
    intro bs ptr
    rw [List.cons_append]
    simp only [seekLayers]
    rw [ih]
    rfl

theorem matches_buffer_list (p : Nat) :
    ∀ (layers : List (LayerBuilder Nat)) (E : List (Nat × Nat)),
    MatchesLayers p E layers →
    layers.map (fun l => Layer.read (α := Nat) l.buffer)
      = (levelsList p layers.length E).map (fun L => Layer.read (encList u32Ser L)) := by
  intro layers
  induction layers with
  | nil => intro E _; rfl
  | cons l rest ih =>
    intro E hm
    obtain ⟨-, -, hbuf, -, -, hrest⟩ := hm
    rw [List.map_cons, hbuf, List.length_cons]
    rw [show levelsList p (rest.length + 1) E = E :: levelsList p rest.length (promote p u32Ser E)
      from rfl]
    rw [List.map_cons, ih (promote p u32Ser E) hrest]

theorem matches_end (p : Nat) :
    ∀ (layers : List (LayerBuilder Nat)) (E : List (Nat × Nat)),
    MatchesLayers p E layers → promoteIter p E layers.length = [] := by
  intro layers
  induction layers with
  | nil => intro E hm; exact hm
  | cons l rest ih =>
    intro E hm
    obtain ⟨-, -, -, -, -, hrest⟩ := hm
    have := ih (promote p u32Ser E) hrest
    rw [promoteIter_shift] at this
    exact this

theorem promoteIter_nil_after (p : Nat) (E : List (Nat × Nat)) (n : Nat)
    (h : promoteIter p E n = []) :
    ∀ k, n ≤ k → promoteIter p E k = [] := by
  intro k hk
  induction k with
  | zero =>
    have : n = 0 := by omega
    rw [← this]
    exact h
  | succ k ih =>
    by_cases hnk : n ≤ k
    · have hek := ih hnk
      show promote p u32Ser (promoteIter p E k) = []
      rw [hek]
      rfl
    · have : n = k + 1 := by omega
      rw [← this]
      exact h

theorem promoteIter_key_mem (p : Nat) (E : List (Nat × Nat)) :
    ∀ (k : Nat) (x : Nat × Nat), x ∈ promoteIter p E k → ∃ z ∈ E, x.1 = z.1 := by
  intro k
  induction k with
  | zero => intro x hx; exact ⟨x, hx, rfl⟩
  | succ k ih =>
    intro x hx
    obtain ⟨y, hy, hxy⟩ := promoteAux_key_mem p u32Ser (promoteIter p E k) 0 0 x hx
    obtain ⟨z, hz, hyz⟩ := ih y hy
    exact ⟨z, hz, by rw [hxy, hyz]⟩

theorem promoteIter_pairwise (p : Nat) (E : List (Nat × Nat))
    (hE : E.Pairwise (fun a b => a.1 < b.1)) :
    ∀ k, (promoteIter p E k).Pairwise (fun a b => a.1 < b.1) := by
  intro k
  induction k with
  | zero => exact hE
  | succ k ih => exact promoteAux_pairwise p u32Ser (promoteIter p E k) 0 0 ih

theorem encList_take_le (c : BinarySerializable α) (es : List (Nat × α)) (j : Nat) :
    (encList c (es.take j)).length ≤ (encList c es).length := by
  conv_rhs => rw [← List.take_append_drop j es]
  rw [encList_append, List.length_append]
  omega

theorem promote_val_le (p : Nat) (c : BinarySerializable α) (L : List (Nat × α))
    (x : Nat × Nat) (hx : x ∈ promote p c L) : x.2 ≤ (encList c L).length := by
  obtain ⟨j, hj, hx2⟩ := promoteAux_shape p c L 0 0 x hx
  rw [hx2]
  show 0 + (encList c (L.take j)).length ≤ _
  rw [Nat.zero_add]
  exact encList_take_le c L j

theorem length_le_flatten (ls : List (List Nat)) (x : List Nat) (hx : x ∈ ls) :
    x.length ≤ ls.flatten.length := by
  induction ls with
  | nil => exact absurd hx (by simp)
  | cons y ys ih =>
    rcases List.mem_cons.mp hx with h | h
    · rw [h]
      simp [List.length_append]
    · have := ih h
      simp only [List.flatten_cons, List.length_append]
      omega

/-- Walking the skip layers top-down: starting from no promotion pointer, the
loop of `SkipList::seek` ends with the pointer that is the last entry below
the target in the *bottom* skip layer `E` (or `none` when there are no skip
layers, in which case `E = []`). -/
theorem seekWalk (p t : Nat) :
    ∀ (n : Nat) (E : List (Nat × Nat)),
    promoteIter p E n = [] →
    (∀ k, ∀ e ∈ promoteIter p E k, e.1 < U32MAX) →
    (∀ k, ∀ e ∈ promoteIter p E k, DeserVal u32Ser e.2) →
    (∀ k, (promoteIter p E k).Pairwise (fun a b => a.1 < b.1)) →
    (seekLayers t (((levelsList p n E).reverse).map
        (fun L => Layer.read (encList u32Ser L))) none).2
      = (E.takeWhile (fun e => decide (e.1 < t))).getLast? := by
  intro n
  induction n with
  | zero =>
    intro E hend _ _ _
    have hE : E = [] := hend
    rw [hE]
    rfl
  | succ n ih =>
    intro E hend hkeys hvals hasc
    rw [show levelsList p (n + 1) E = E :: levelsList p n (promote p u32Ser E) from rfl]
    rw [List.reverse_cons, List.map_append, seekLayers_append]
    have hmid : (seekLayers t ((levelsList p n (promote p u32Ser E)).reverse.map
        (fun L => Layer.read (encList u32Ser L))) none).2
        = ((promote p u32Ser E).takeWhile (fun e => decide (e.1 < t))).getLast? := by
      apply ih (promote p u32Ser E)
      · rw [promoteIter_shift]
        exact hend
      · intro k
        rw [promoteIter_shift]
        exact hkeys (k + 1)
      · intro k
        rw [promoteIter_shift]
        exact hvals (k + 1)
      · intro k
        rw [promoteIter_shift]
        exact hasc (k + 1)
    rw [hmid]
    rcases hcase : ((promote p u32Ser E).takeWhile (fun e => decide (e.1 < t))).getLast?
      with _ | pr
    · obtain ⟨l2, hstep, -⟩ :=
        layer_step u32Ser p t E (hkeys 0) (hvals 0) (hasc 0) none hcase.symm
      simp only [seekLayers, List.map_cons, List.map_nil]
      rw [hcase]
      exact congrArg Prod.fst hstep
    · obtain ⟨pr1, pr2⟩ := pr
      obtain ⟨l2, hstep, -⟩ :=
        layer_step u32Ser p t E (hkeys 0) (hvals 0) (hasc 0) (some (pr1, pr2)) hcase.symm
      simp only [seekLayers, List.map_cons, List.map_nil]
      rw [hcase]
      exact congrArg Prod.fst hstep

theorem skipList_next_fst (c : BinarySerializable α) (sk : SkipList α) :
    (SkipList.next c sk).map Prod.fst = (sk.data_layer.next c).map Prod.fst := by
  rw [SkipList.next]
  cases h : sk.data_layer.next c with
  | none => rfl
  | some el =>
    obtain ⟨e, l⟩ := el
    rfl

/-- C1: on a freshly read skip list built from strictly ascending entries
with period `≥ 2`, after `SkipList::seek(t)` the next call to `next` yields
exactly the first (smallest) entry whose `doc_id` is `≥ t`, and `None` when no
such entry exists — in particular seeking strictly beyond the maximum key
makes the next iteration yield `None`. -/
theorem skiplist_seek_correct
    (c : BinarySerializable α) (p : Nat) (es : List (Nat × α))
    (b : SkipListBuilder α) (sk : SkipList α) (t : Nat)
    (hp : 2 ≤ p)
    (hasc : es.Pairwise (fun a b => a.1 < b.1))
    (hkeys : ∀ e ∈ es, e.1 < U32MAX)
    (hvals : ∀ e ∈ es, DeserVal c e.2)
    (hall : insertAll c (SkipListBuilder.new p) es = some b)
    (hsz : b.write.length < 4294967296)
    (hread : SkipList.read b.write = some sk) :
    (SkipList.next c (SkipList.seek c sk t).2).map Prod.fst
      = es.find? (fun e => decide (t ≤ e.1)) := by
  obtain ⟨hbp, hper, hbuf, hlen, hrem, hm⟩ := insertAll_inv c p hp es b hall
  rw [skipList_read_write b hsz] at hread
  have hsk := Option.some.inj hread
  subst hsk
  -- goodness of every ghost level
  have hE1asc : (promote p c es).Pairwise (fun a b => a.1 < b.1) :=
    promoteAux_pairwise p c es 0 0 hasc
  have hkeysIter : ∀ k, ∀ e ∈ promoteIter p (promote p c es) k, e.1 < U32MAX := by
    intro k e he
    obtain ⟨z, hz, hez⟩ := promoteIter_key_mem p _ k e he
    obtain ⟨w, hw, hzw⟩ := promoteAux_key_mem p c es 0 0 z hz
    rw [hez, hzw]
    exact hkeys w hw
  have hascIter : ∀ k, (promoteIter p (promote p c es) k).Pairwise (fun a b => a.1 < b.1) :=
    promoteIter_pairwise p _ hE1asc
  have hw : b.write = serVecU32 b.layer_sizes ++ b.data_layer.buffer
      ++ (b.skip_layers.map (fun l => l.buffer)).flatten := rfl
  have hwlen : b.write.length = (serVecU32 b.layer_sizes).length
      + b.data_layer.buffer.length
      + ((b.skip_layers.map (fun l => l.buffer)).flatten).length := by
    rw [hw, List.append_assoc, List.length_append, List.length_append]
    omega
  have hbuflen : b.data_layer.buffer.length < 4294967296 := by omega
  have hskipbuflen : ∀ l ∈ b.skip_layers, l.buffer.length < 4294967296 := by
    intro l hl
    have h1 : l.buffer ∈ b.skip_layers.map (fun l => l.buffer) :=
      List.mem_map_of_mem _ hl
    have h2 := length_le_flatten _ _ h1
    omega
  have hvalsIter : ∀ k, ∀ e ∈ promoteIter p (promote p c es) k, DeserVal u32Ser e.2 := by
    intro k e he
    apply deserVal_u32
    match k with
    | 0 =>
      have hle := promote_val_le p c es e he
      rw [← hbuf] at hle
      omega
    | k + 1 =>
      have hle := promote_val_le p u32Ser (promoteIter p (promote p c es) k) e he
      by_cases hk : k < b.skip_layers.length
      · have hbufk := matchesLayers_get p b.skip_layers (promote p c es) hm k hk
        have hlen2 := hskipbuflen _ (List.get_mem b.skip_layers k hk)
        rw [hbufk] at hlen2
        omega
      · have hnil : promoteIter p (promote p c es) (k + 1) = [] :=
          promoteIter_nil_after p _ _ (matches_end p b.skip_layers _ hm) (k + 1) (by omega)
        rw [hnil] at he
        exact absurd he (by simp)
  -- the skip-layer walk lands on the last promoted entry below the target
  have hwalk : (seekLayers t
      ((b.skip_layers.map (fun l => Layer.read (α := Nat) l.buffer)).reverse) none).2
      = ((promote p c es).takeWhile (fun e => decide (e.1 < t))).getLast? := by
    rw [matches_buffer_list p b.skip_layers (promote p c es) hm, ← List.map_reverse]
    exact seekWalk p t b.skip_layers.length (promote p c es)
      (matches_end p _ _ hm) hkeysIter hvalsIter hascIter
  rcases hcase : ((promote p c es).takeWhile (fun e => decide (e.1 < t))).getLast?
    with _ | pr
  · obtain ⟨l2, hstep, hreads2⟩ :=
      layer_step c p t es hkeys hvals hasc none hcase.symm
    simp only [SkipList.seek]
    rw [hwalk, hcase, skipList_next_fst]
    have h3 := congrArg (fun x => (Layer.next c x.2).map Prod.fst) hstep
    simp only at h3
    rw [hbuf]
    rw [h3]
    rw [readsAs_next_head c l2 _ hreads2
      (fun x hx => hvals x ((List.dropWhile_sublist _).mem hx))
      (fun x hx => hkeys x ((List.dropWhile_sublist _).mem hx))]
    exact head?_dropWhile_eq_find? t es
  · obtain ⟨pr1, pr2⟩ := pr
    obtain ⟨l2, hstep, hreads2⟩ :=
      layer_step c p t es hkeys hvals hasc (some (pr1, pr2)) hcase.symm
    simp only [SkipList.seek]
    rw [hwalk, hcase, skipList_next_fst]
    have h3 := congrArg (fun x => (Layer.next c x.2).map Prod.fst) hstep
    simp only at h3
    rw [hbuf]
    rw [h3]
    rw [readsAs_next_head c l2 _ hreads2
      (fun x hx => hvals x ((List.dropWhile_sublist _).mem hx))
      (fun x hx => hkeys x ((List.dropWhile_sublist _).mem hx))]
    exact head?_dropWhile_eq_find? t es

/-- Witness for C1 at a concrete input: the period-2 skip list over keys
`2, 3, 5, 7, 9` with unit payloads, sought to 5 (the scenario of the source's
own test). -/
theorem skiplist_seek_correct_witness :
    (SkipList.next unitSer
      (SkipList.seek unitSer
        ((SkipList.read
          ((insertAll unitSer (SkipListBuilder.new 2)
            [(2,()),(3,()),(5,()),(7,()),(9,())]).getD
            (SkipListBuilder.new 2)).write).getD
          { data_layer := Layer.empty, skip_layers := [] }) 5).2).map Prod.fst
      = [(2,()),(3,()),(5,()),(7,()),(9,())].find? (fun e => decide (5 ≤ e.1)) :=
  skiplist_seek_correct unitSer 2 [(2,()),(3,()),(5,()),(7,()),(9,())]
    ((insertAll unitSer (SkipListBuilder.new 2)
      [(2,()),(3,()),(5,()),(7,()),(9,())]).getD (SkipListBuilder.new 2))
    ((SkipList.read
      ((insertAll unitSer (SkipListBuilder.new 2)
        [(2,()),(3,()),(5,()),(7,()),(9,())]).getD
        (SkipListBuilder.new 2)).write).getD
      { data_layer := Layer.empty, skip_layers := [] })
    5
    (by decide)
    (by decide)
    (by decide)
    (fun e _ => deserVal_unit e.2)
    (by rfl)
    (by decide)
    (by rfl)

/-- Witness for C6 at a concrete input: period 2, four inserts produce two
skip layers whose buffers match the promoted subsamples. -/
theorem skip_layer_pointer_invariant_witness :
    ((((insertAll u32Ser (SkipListBuilder.new 2) [(0,0),(1,1),(2,2),(3,3)]).getD
        (SkipListBuilder.new 2)).skip_layers.get
        ⟨0, by decide⟩).buffer
      = encList u32Ser (skipLevel 2 u32Ser [(0,0),(1,1),(2,2),(3,3)] 0))
    ∧ ((((insertAll u32Ser (SkipListBuilder.new 2) [(0,0),(1,1),(2,2),(3,3)]).getD
        (SkipListBuilder.new 2)).skip_layers.get
        ⟨1, by decide⟩).buffer
      = encList u32Ser (skipLevel 2 u32Ser [(0,0),(1,1),(2,2),(3,3)] 1)) :=
  ⟨(skip_layer_pointer_invariant u32Ser 2 [(0,0),(1,1),(2,2),(3,3)] _
      (by decide) (by rfl)).1 0 (by decide),
   (skip_layer_pointer_invariant u32Ser 2 [(0,0),(1,1),(2,2),(3,3)] _
      (by decide) (by rfl)).1 1 (by decide)⟩

/-! ### The segment serializer (`src/core/codec.rs`, `SimpleSegmentSerializer`) -/

/-- Unsigned lexicographic strict order on byte strings (the order of terms
in the dictionary). -/
def ltBytes : List Nat → List Nat → Bool
  | [], [] => false
  | [], _ :: _ => true
  | _ :: _, [] => false
  | a :: as, b :: bs => if a < b then true else if b < a then false else ltBytes as bs

/-- Modelled from the spec: the external `fst::MapBuilder` — "a black-box
ordered `Map<bytes, u64>` builder" that "requires insertion in strict
ascending order".  `insert` appends the pair and reports success when the key
is strictly greater than the last inserted key; an out-of-order key is
rejected (reported as failure) and leaves the map unchanged. -/
structure MapBuilderM where
  entries : List (List Nat × Nat)

/-- Insert into the ordered map builder; the `Bool` is the success of the
`Result` the real `fst::MapBuilder::insert` returns. -/
def MapBuilderM.insert (m : MapBuilderM) (k : List Nat) (v : Nat) :
    MapBuilderM × Bool :=
  match m.entries.getLast? with
  | none => ({ entries := m.entries ++ [(k, v)] }, true)
  | some last =>
    if ltBytes last.1 k then ({ entries := m.entries ++ [(k, v)] }, true)
    else (m, false)

/-- `SimpleSegmentSerializer` of `codec.rs`.  The postings `File` is modelled
as the byte list written so far; the `segment`, `store_writer` and `encoder`
fields are external collaborators (the store is not touched by the posting
operations, and the SIMD encoder is passed to `write_docs` as a function). -/
structure SimpleSegmentSerializer where
  written_bytes_postings : Nat
  postings_write : List Nat
  term_fst_builder : MapBuilderM
  cur_term_num_docs : Nat

/-- The serializer state `SimpleCodec::serializer` constructs: zero bytes
written, empty postings file, fresh term dictionary builder. -/
def initSerializer : SimpleSegmentSerializer :=
  { written_bytes_postings := 0
    postings_write := []
    term_fst_builder := { entries := [] }
    cur_term_num_docs := 0 }

/-- `SimpleSegmentSerializer::new_term`: record the current postings byte
offset in the term dictionary under `term` — NOTE: exactly as in the source,
the `Result` of the dictionary insertion is discarded — then write `df:u32 BE`
into the postings file and advance the byte counter by 4.  (The `WriteError`
branch of the source fires only when the underlying `File` write fails, which
the in-memory byte-list file cannot.) -/
def SimpleSegmentSerializer.new_term (s : SimpleSegmentSerializer)
    (term : List Nat) (doc_freq : Nat) : Except String SimpleSegmentSerializer :=
  let r := s.term_fst_builder.insert term s.written_bytes_postings
  Except.ok { written_bytes_postings := s.written_bytes_postings + 4
              postings_write := s.postings_write ++ u32Bytes doc_freq
              term_fst_builder := r.1
              cur_term_num_docs := doc_freq }

/-- `SimpleSegmentSerializer::write_docs`: run the external integer codec
`enc` over the DocIds, write `compressed_len:u32 BE` (counter `+ 4`), then
each compressed word as `u32 BE` (counter `+ 4` per word). -/
def SimpleSegmentSerializer.write_docs (enc : List Nat → List Nat)
    (s : SimpleSegmentSerializer) (doc_ids : List Nat) :
    Except String SimpleSegmentSerializer :=
  let docs_data := enc doc_ids
  let s1 := { s with
    postings_write := s.postings_write ++ u32Bytes docs_data.length
    written_bytes_postings := s.written_bytes_postings + 4 }
  Except.ok (docs_data.foldl
    (fun st num =>
      { st with
        postings_write := st.postings_write ++ u32Bytes num
        written_bytes_postings := st.written_bytes_postings + 4 })
    s1)

/-- `SimpleSegmentSerializer::close`: the source calls
`term_fst_builder.finish()` and `store_writer.close()`, discards both results
(`// TODO handle errors on close`), and returns `Ok(())`.  The two arguments
are the outcomes of those external finalization calls (modelled from the
spec, since the FST builder and the store writer are black boxes). -/
def SimpleSegmentSerializer.close (s : SimpleSegmentSerializer)
    (fst_finish_result : Except String Unit)
    (store_close_result : Except String Unit) : Except String Unit :=
  Except.ok ()

/-- C3: calling `new_term` with a term not strictly greater than the previous
one is NOT rejected: the serializer returns `Ok` and the out-of-order term is
silently dropped from the dictionary (the `Result` of
`term_fst_builder.insert` is discarded on line 45 of `codec.rs`).  At the
concrete failing input — `new_term("b", 1)` then `new_term("a", 1)` — the
second call succeeds and the dictionary holds only `"b"`. -/
theorem new_term_out_of_order_accepted :
    (initSerializer.new_term [98] 1).bind (fun s1 => s1.new_term [97] 1)
      = Except.ok
          { written_bytes_postings := 8
            postings_write := [0, 0, 0, 1, 0, 0, 0, 1]
            term_fst_builder := { entries := [([98], 0)] }
            cur_term_num_docs := 1 } := by
  rfl

/-- C4: every outcome of the external finalizations — including I/O errors —
is swallowed by `close`, which unconditionally returns `Ok(())`; at the
concrete failing input where finishing the term FST fails with an I/O error,
`close` still reports success. -/
theorem close_swallows_errors :
    ∀ (s : SimpleSegmentSerializer) (e1 e2 : Except String Unit),
    s.close e1 e2 = Except.ok () := by
  intro s e1 e2
  rfl

/-- One posting-stream event of the serializer. -/
inductive PostingEvent where
  | new_term (term : List Nat) (doc_freq : Nat)
  | write_docs (doc_ids : List Nat)

/-- Apply a sequence of posting events, threading the `Result`s. -/
def applyEvents (enc : List Nat → List Nat) (s : SimpleSegmentSerializer) :
    List PostingEvent → Except String SimpleSegmentSerializer
  | [] => Except.ok s
  | ev :: evs =>
    match (match ev with
      | PostingEvent.new_term t df => s.new_term t df
      | PostingEvent.write_docs ds => s.write_docs enc ds) with
    | Except.error e => Except.error e
    | Except.ok s2 => applyEvents enc s2 evs

theorem foldl_writes_invariant (xs : List Nat) :
    ∀ (st : SimpleSegmentSerializer),
    st.written_bytes_postings = st.postings_write.length →
    (xs.foldl (fun st num =>
      { st with
        postings_write := st.postings_write ++ u32Bytes num
        written_bytes_postings := st.written_bytes_postings + 4 })
      st).written_bytes_postings
    = (xs.foldl (fun st num =>
      { st with
        postings_write := st.postings_write ++ u32Bytes num
        written_bytes_postings := st.written_bytes_postings + 4 })
      st).postings_write.length := by
  induction xs with
  | nil => intro st h; exact h
  | cons x xs ih =>
    intro st h
    refine ih _ ?_
    show st.written_bytes_postings + 4 = (st.postings_write ++ u32Bytes x).length
    rw [List.length_append, u32Bytes_length, h]

theorem event_preserves_invariant (enc : List Nat → List Nat)
    (s s2 : SimpleSegmentSerializer) (ev : PostingEvent)
    (h : s.written_bytes_postings = s.postings_write.length)
    (happ : (match ev with
      | PostingEvent.new_term t df => s.new_term t df
      | PostingEvent.write_docs ds => s.write_docs enc ds) = Except.ok s2) :
    s2.written_bytes_postings = s2.postings_write.length := by
  match ev with
  | PostingEvent.new_term t df =>
    have hs2 := Except.ok.inj happ
    rw [← hs2]
    show s.written_bytes_postings + 4 = (s.postings_write ++ u32Bytes df).length
    rw [List.length_append, u32Bytes_length, h]
  | PostingEvent.write_docs ds =>
    have hs2 := Except.ok.inj happ
    rw [← hs2]
    refine foldl_writes_invariant (enc ds) _ ?_
    show s.written_bytes_postings + 4 = (s.postings_write ++ u32Bytes (enc ds).length).length
    rw [List.length_append, u32Bytes_length, h]

theorem applyEvents_invariant (enc : List Nat → List Nat) :
    ∀ (evs : List PostingEvent) (s s2 : SimpleSegmentSerializer),
    s.written_bytes_postings = s.postings_write.length →
    applyEvents enc s evs = Except.ok s2 →
    s2.written_bytes_postings = s2.postings_write.length := by
  intro evs
  induction evs with
  | nil =>
    intro s s2 h happ
    have := Except.ok.inj happ
    rw [← this]
    exact h
  | cons ev evs ih =>
    intro s s2 h happ
    simp only [applyEvents] at happ
    match hstep : (match ev with
      | PostingEvent.new_term t df => s.new_term t df
      | PostingEvent.write_docs ds => s.write_docs enc ds) with
    | Except.error e => rw [hstep] at happ; exact absurd happ (by simp)
    | Except.ok s1 =>
      rw [hstep] at happ
      exact ih s1 s2 (event_preserves_invariant enc s s1 ev h hstep) happ

/-- C7: after every successful sequence of `new_term` and `write_docs`
calls starting from a fresh serializer, `written_bytes_postings` equals the
length of the postings file written so far, and this is exactly the offset
the next `new_term` records in the term dictionary for its term (it inserts
the pre-`df` offset, then advances the counter by 4). -/
theorem written_bytes_postings_invariant
    (enc : List Nat → List Nat) (evs : List PostingEvent)
    (s : SimpleSegmentSerializer)
    (happ : applyEvents enc initSerializer evs = Except.ok s) :
    s.written_bytes_postings = s.postings_write.length
    ∧ ∀ (term : List Nat) (df : Nat) (s2 : SimpleSegmentSerializer),
      s.new_term term df = Except.ok s2 →
      s2.term_fst_builder = (s.term_fst_builder.insert term s.postings_write.length).1 := by
  have hinv := applyEvents_invariant enc evs initSerializer s rfl happ
  refine ⟨hinv, ?_⟩
  intro term df s2 h2
  have := Except.ok.inj h2
  rw [← this, ← hinv]

/-- Witness for C7 at a concrete event sequence (two terms, one posting list
in between, identity codec). -/
theorem written_bytes_postings_invariant_witness :
    ((applyEvents (fun x => x) initSerializer
      [PostingEvent.new_term [97] 2, PostingEvent.write_docs [1, 5],
       PostingEvent.new_term [98] 1]).toOption.getD initSerializer).written_bytes_postings
    = ((applyEvents (fun x => x) initSerializer
      [PostingEvent.new_term [97] 2, PostingEvent.write_docs [1, 5],
       PostingEvent.new_term [98] 1]).toOption.getD initSerializer).postings_write.length :=
  (written_bytes_postings_invariant (fun x => x)
    [PostingEvent.new_term [97] 2, PostingEvent.write_docs [1, 5],
     PostingEvent.new_term [98] 1] _ (by rfl)).1

/-! ### The searcher (`src/core/searcher.rs`) -/

/-- One call the `Searcher::search` loop makes on the `Collector`, in call
order. -/
inductive SearchEvent (β : Type) where
  | set_segment (reader : β)
  | collect (doc_id : Nat)
deriving DecidableEq

/-- `Searcher` of `searcher.rs`: the ordered segment-reader vector plus the
`SegmentId → dense index` map, modelled as an association list
(`SegmentReader` itself lives in the missing `core/reader.rs`, so the reader
type is a parameter). -/
structure SearcherM (β : Type) where
  segments : List β
  segments_idx : List (Nat × Nat)

/-- `Searcher::new`. -/
def SearcherM.new : SearcherM β := { segments := [], segments_idx := [] }

/-- `Searcher::add_segment`: open the segment reader (`openR`, a black box in
the missing `core/reader.rs`); on success push it and record
`id ↦ old length`; on failure propagate the error without pushing. -/
def SearcherM.add_segment (openR : σ → Except String β) (idOf : σ → Nat)
    (st : SearcherM β) (seg : σ) : Except String (SearcherM β) :=
  (openR seg).map (fun reader =>
    { segments := st.segments ++ [reader]
      segments_idx := st.segments_idx ++ [(idOf seg, st.segments.length)] })

/-- A sequence of `add_segment` calls. -/
def addAll (openR : σ → Except String β) (idOf : σ → Nat) :
    SearcherM β → List σ → Except String (SearcherM β)
  | st, [] => Except.ok st
  | st, seg :: rest =>
    match st.add_segment openR idOf seg with
    | Except.error e => Except.error e
    | Except.ok st2 => addAll openR idOf st2 rest

/-- `Searcher::search` as the trace of `Collector` calls its two nested `for`
loops make: for each segment reader in vector order, one `set_segment`, then
one `collect` per DocId of that segment's postings iterator (`postings` is
the black-box `SegmentReader::search` of the missing `core/reader.rs`). -/
def SearcherM.search (postings : β → List Nat) (st : SearcherM β) :
    List (SearchEvent β) :=
  st.segments.foldl
    (fun acc segment =>
      (acc ++ [SearchEvent.set_segment segment])
        ++ (postings segment).map SearchEvent.collect)
    []

/-- Opening every segment in order (the readers `add_segment` would push). -/
def openAll (openR : σ → Except String β) : List σ → Except String (List β)
  | [] => Except.ok []
  | g :: gs =>
    match openR g with
    | Except.error e => Except.error e
    | Except.ok r => (openAll openR gs).map (fun rs => r :: rs)

theorem search_foldl_trace (postings : β → List Nat) :
    ∀ (rs : List β) (acc : List (SearchEvent β)),
    rs.foldl (fun acc segment =>
      (acc ++ [SearchEvent.set_segment segment])
        ++ (postings segment).map SearchEvent.collect) acc
    = acc ++ (rs.map (fun r =>
        SearchEvent.set_segment r :: (postings r).map SearchEvent.collect)).flatten := by
  intro rs
  induction rs with
  | nil => intro acc; simp
  | cons r rs ih =>
    intro acc
    rw [List.foldl_cons, ih, List.map_cons, List.flatten_cons]
    simp [List.append_assoc]

theorem addAll_segments (openR : σ → Except String β) (idOf : σ → Nat) :
    ∀ (segs : List σ) (st st2 : SearcherM β),
    addAll openR idOf st segs = Except.ok st2 →
    ∃ rs, openAll openR segs = Except.ok rs ∧ st2.segments = st.segments ++ rs := by
  intro segs
  induction segs with
  | nil =>
    intro st st2 h
    refine ⟨[], rfl, ?_⟩
    rw [← Except.ok.inj h, List.append_nil]
  | cons g gs ih =>
    intro st st2 h
    rw [addAll] at h
    match hop : openR g with
    | Except.error e =>
      rw [show st.add_segment openR idOf g = Except.error e by
        rw [SearcherM.add_segment, hop]; rfl] at h
      exact absurd h (by simp)
    | Except.ok r =>
      rw [show st.add_segment openR idOf g = Except.ok
          { segments := st.segments ++ [r]
            segments_idx := st.segments_idx ++ [(idOf g, st.segments.length)] } by
        rw [SearcherM.add_segment, hop]; rfl] at h
      obtain ⟨rs, hopen, hsegs⟩ := ih _ st2 h
      refine ⟨r :: rs, ?_, ?_⟩
      · rw [openAll, hop, hopen]
        rfl
      · rw [hsegs]
        simp

/-- C9: a searcher built by adding segments in some insertion order visits the
segments sequentially in exactly that order; for each segment the collector
first receives `set_segment`, then every DocId of that segment's postings
iterator via `collect`, in iterator order — the whole call trace is the
in-order concatenation of the per-segment blocks. -/
theorem searcher_search_order (openR : σ → Except String β) (idOf : σ → Nat)
    (postings : β → List Nat) (segs : List σ) (st : SearcherM β)
    (hall : addAll openR idOf SearcherM.new segs = Except.ok st) :
    ∃ rs, openAll openR segs = Except.ok rs ∧ st.segments = rs
      ∧ st.search postings
        = (rs.map (fun r =>
            SearchEvent.set_segment r :: (postings r).map SearchEvent.collect)).flatten := by
  obtain ⟨rs, hopen, hsegs⟩ := addAll_segments openR idOf segs SearcherM.new st hall
  rw [show (SearcherM.new : SearcherM β).segments = [] from rfl, List.nil_append] at hsegs
  refine ⟨rs, hopen, hsegs, ?_⟩
  rw [SearcherM.search, hsegs, search_foldl_trace, List.nil_append]

/-- Witness for C9 at a concrete input: two segments whose readers are their
ids, with two resp. one postings. -/
theorem searcher_search_order_witness :
    ∃ rs, openAll (fun g : Nat => Except.ok g) [7, 9] = Except.ok rs
      ∧ ((addAll (fun g : Nat => Except.ok g) (fun g => g)
          SearcherM.new [7, 9]).toOption.getD SearcherM.new).segments = rs
      ∧ ((addAll (fun g : Nat => Except.ok g) (fun g => g)
          SearcherM.new [7, 9]).toOption.getD SearcherM.new).search
          (fun r => [r, r + 1])
        = (rs.map (fun r =>
            SearchEvent.set_segment r :: ([r, r + 1]).map SearchEvent.collect)).flatten :=
  searcher_search_order (fun g : Nat => Except.ok g) (fun g => g)
    (fun r => [r, r + 1]) [7, 9]
    ((addAll (fun g : Nat => Except.ok g) (fun g => g)
      SearcherM.new [7, 9]).toOption.getD SearcherM.new)
    (by rfl)

/-! ### The caching file handle (`src/directory/fs_directory.rs`, `FSFile`) -/

/-- The block size `CS` of `fs_directory.rs`. -/
def CS : Nat := 4096

/-- `FSFile::read_bytes_real(i * CS, min((i + 1) * CS, len))` — the bytes a
cache miss loads for block `i`: seek to `i * CS` and read
`min((i + 1) * CS, len) - i * CS` bytes. -/
def blockBytes (file : List Nat) (i : Nat) : List Nat :=
  (file.drop (i * CS)).take (min ((i + 1) * CS) file.length - i * CS)

/-- `cache.entry(i).or_insert_with(...)`: serve block `i` from the cache when
present, otherwise load it with `read_bytes_real`. -/
def cachedBlock (file : List Nat) (cache : Nat → Option (List Nat)) (i : Nat) :
    List Nat :=
  match cache i with
  | some chunk => chunk
  | none => blockBytes file i

/-- `FSFile::read_bytes(from, to)`: for every block index from `from / CS` to
`to / CS` inclusive, slice the (cached or freshly loaded) block between the
block-local start and end offsets and copy the slices, in order, into the
output buffer.  The source copies each slice into the exactly-sized
pre-allocated `out_buf` at the running `written` offset, which for
`from ≤ to ≤ len` is precisely their concatenation. -/
def FSFile.read_bytes (file : List Nat) (cache : Nat → Option (List Nat))
    (fromPos toPos : Nat) : List Nat :=
  let starti := fromPos / CS
  let endi := toPos / CS
  ((List.range' starti (endi + 1 - starti)).map (fun i =>
    let sofs := if i = starti then fromPos % CS else 0
    let eofs := if i = endi then toPos % CS else CS
    ((cachedBlock file cache i).drop sofs).take (eofs - sofs))).flatten

theorem blockBytes_eq (file : List Nat) (i : Nat) :
    blockBytes file i = (file.drop (i * CS)).take CS := by
  have hCS : CS = 4096 := rfl
  rw [blockBytes]
  rcases Nat.le_total ((i + 1) * CS) file.length with h | h
  · rw [Nat.min_eq_left h]
    congr 1
    simp only [hCS] at *
    omega
  · rw [Nat.min_eq_right h]
    have hlen : (file.drop (i * CS)).length = file.length - i * CS := by
      simp [List.length_drop]
    rw [List.take_of_length_le (by simp only [hCS] at *; omega),
      List.take_of_length_le (by simp only [hCS] at *; omega)]

theorem chunks_correct (file : List Nat) :
    ∀ (n fromPos toPos : Nat),
    fromPos ≤ toPos → toPos ≤ file.length →
    fromPos / CS + n = toPos / CS →
    ((List.range' (fromPos / CS) (n + 1)).map (fun i =>
      let sofs := if i = fromPos / CS then fromPos % CS else 0
      let eofs := if i = toPos / CS then toPos % CS else CS
      (((file.drop (i * CS)).take CS).drop sofs).take (eofs - sofs))).flatten
    = (file.drop fromPos).take (toPos - fromPos) := by
  intro n
  induction n with
  | zero =>
    intro fromPos toPos hft htl hdiv
    rw [Nat.add_zero] at hdiv
    have hCS : CS = 4096 := rfl
    have hmodf := Nat.div_add_mod fromPos CS
    have hmodt := Nat.div_add_mod toPos CS
    rw [show List.range' (fromPos / CS) 1 = [fromPos / CS] from rfl, List.map_cons,
      List.map_nil, List.flatten_cons, List.flatten_nil, List.append_nil]
    show (((file.drop (fromPos / CS * CS)).take CS).drop
        (if fromPos / CS = fromPos / CS then fromPos % CS else 0)).take
        ((if fromPos / CS = toPos / CS then toPos % CS else CS)
          - (if fromPos / CS = fromPos / CS then fromPos % CS else 0))
      = (file.drop fromPos).take (toPos - fromPos)
    rw [if_pos rfl, if_pos hdiv]
    rw [List.drop_take, List.drop_drop, List.take_take]
    rw [Nat.min_eq_left (by simp only [hCS] at *; omega)]
    congr 1
    · simp only [hCS] at *
      omega
    · congr 1
      simp only [hCS] at *
      omega
  | succ n ih =>
    intro fromPos toPos hft htl hdiv
    have hCS : CS = 4096 := rfl
    have hmodf := Nat.div_add_mod fromPos CS
    have hmodt := Nat.div_add_mod toPos CS
    have hne : fromPos / CS ≠ toPos / CS := by omega
    rw [List.range'_succ, List.map_cons, List.flatten_cons]
    show (((file.drop (fromPos / CS * CS)).take CS).drop
        (if fromPos / CS = fromPos / CS then fromPos % CS else 0)).take
        ((if fromPos / CS = toPos / CS then toPos % CS else CS)
          - (if fromPos / CS = fromPos / CS then fromPos % CS else 0))
      ++ ((List.range' (fromPos / CS + 1) (n + 1)).map (fun i =>
        let sofs := if i = fromPos / CS then fromPos % CS else 0
        let eofs := if i = toPos / CS then toPos % CS else CS
        (((file.drop (i * CS)).take CS).drop sofs).take (eofs - sofs))).flatten
      = (file.drop fromPos).take (toPos - fromPos)
    rw [if_pos rfl, if_neg hne]
    -- the first (partial) block covers [fromPos, (fromPos / CS + 1) * CS)
    have hfirst : (((file.drop (fromPos / CS * CS)).take CS).drop (fromPos % CS)).take
        (CS - fromPos % CS)
        = (file.drop fromPos).take ((fromPos / CS + 1) * CS - fromPos) := by
      rw [List.drop_take, List.drop_drop, List.take_take, Nat.min_self]
      congr 1
      · simp only [hCS] at *
        omega
      · congr 1
        simp only [hCS] at *
        omega
    have hnextdiv : ((fromPos / CS + 1) * CS) / CS = fromPos / CS + 1 := by
      apply Nat.mul_div_cancel
      rw [hCS]
      omega
    have hnextmod : ((fromPos / CS + 1) * CS) % CS = 0 :=
      Nat.mul_mod_left _ _
    have hnextle : (fromPos / CS + 1) * CS ≤ toPos := by
      simp only [hCS] at *
      omega
    have hrest := ih ((fromPos / CS + 1) * CS) toPos hnextle htl
      (by rw [hnextdiv]; omega)
    rw [hnextdiv, hnextmod] at hrest
    have hmapeq : (List.range' (fromPos / CS + 1) (n + 1)).map (fun i =>
        let sofs := if i = fromPos / CS then fromPos % CS else 0
        let eofs := if i = toPos / CS then toPos % CS else CS
        (((file.drop (i * CS)).take CS).drop sofs).take (eofs - sofs))
        = (List.range' (fromPos / CS + 1) (n + 1)).map (fun i =>
        let sofs := if i = fromPos / CS + 1 then 0 else 0
        let eofs := if i = toPos / CS then toPos % CS else CS
        (((file.drop (i * CS)).take CS).drop sofs).take (eofs - sofs)) := by
      refine List.map_congr_left ?_
      intro i hi
      have hmem : fromPos / CS + 1 ≤ i ∧ i < fromPos / CS + 1 + (n + 1) :=
        List.mem_range'_1.mp hi
      have h1 : i ≠ fromPos / CS := by omega
      simp only [if_neg h1, ite_self]
    rw [hmapeq, hrest, hfirst]
    have ha : (fromPos / CS + 1) * CS - fromPos + (toPos - (fromPos / CS + 1) * CS)
        = toPos - fromPos := by
      simp only [hCS] at *
      omega
    have hdrop2 : (file.drop fromPos).drop ((fromPos / CS + 1) * CS - fromPos)
        = file.drop ((fromPos / CS + 1) * CS) := by
      rw [List.drop_drop]
      congr 1
      simp only [hCS] at *
      omega
    rw [← ha, List.take_add, hdrop2]

/-- C8: `FSFile::read_bytes(from, to)` returns exactly the bytes of the file
in `[from, to)` for every `from ≤ to ≤ file length`, for every cache state
whose cached blocks hold what a miss would load (blocks served from the cache
and blocks loaded on a miss yield the same result). -/
theorem read_bytes_correct (file : List Nat) (cache : Nat → Option (List Nat))
    (hcache : ∀ i chunk, cache i = some chunk → chunk = blockBytes file i)
    (fromPos toPos : Nat) (hft : fromPos ≤ toPos) (htl : toPos ≤ file.length) :
    FSFile.read_bytes file cache fromPos toPos
      = (file.drop fromPos).take (toPos - fromPos) := by
  have hcb : ∀ i, cachedBlock file cache i = (file.drop (i * CS)).take CS := by
    intro i
    rw [cachedBlock]
    cases h : cache i with
    | none => exact blockBytes_eq file i
    | some chunk => exact (hcache i chunk h).trans (blockBytes_eq file i)
  have hdivle : fromPos / CS ≤ toPos / CS := Nat.div_le_div_right hft
  have hn : toPos / CS + 1 - fromPos / CS = (toPos / CS - fromPos / CS) + 1 := by
    omega
  rw [FSFile.read_bytes]
  simp only [hcb, hn]
  exact chunks_correct file (toPos / CS - fromPos / CS) fromPos toPos hft htl (by omega)

/-- Witness for C8 at a concrete input: a ten-byte file, bytes 2 to 7, with
an empty cache. -/
theorem read_bytes_correct_witness :
    FSFile.read_bytes [10, 11, 12, 13, 14, 15, 16, 17, 18, 19] (fun _ => none) 2 7
      = [12, 13, 14, 15, 16] :=
  (read_bytes_correct [10, 11, 12, 13, 14, 15, 16, 17, 18, 19] (fun _ => none)
    (fun i chunk h => Option.noConfusion h) 2 7
    (by decide) (by decide)).trans (by decide)
